import Mathlib

/-!
Shallow embedding of the slot-allocation core of the "roots of sentient"
word-wall service: the capacity table, the occupancy map, the slot-claim
loop, the read-path reconciliation pass and the write-path contribution
flow of `src/app/api/words/route.ts`, together with the client-side
capacity function of `src/app/page.tsx` and the older unbounded variant
of the route.  Store and blob effects are represented by explicit
outcome parameters; everything else is translated operation by
operation from the TypeScript source.
-/

namespace RootsOfSentient

/-- JS truthiness of a nullable string: `null` and `""` are falsy. -/
def truthy : Option String → Bool
  | none => false
  | some s => !(s == "")

/-- Codepoint-wise ascending comparison of character lists; this models the
`(a, b) => a.localeCompare(b)` comparator of the source, which on the
ASCII timestamp strings it is applied to coincides with codepoint order. -/
def charListLe : List Char → List Char → Bool
  | [], _ => true
  | _ :: _, [] => false
  | a :: as, b :: bs =>
    if a.toNat < b.toNat then true
    else if b.toNat < a.toNat then false
    else charListLe as bs

/-- String comparison used to sort unassigned rows by `created_at`. -/
def localeLe (a b : String) : Bool := charListLe a.data b.data

/-- Whether the first list is an initial segment of the second. -/
def charListPre : List Char → List Char → Bool
  | [], _ => true
  | _ :: _, [] => false
  | a :: as, b :: bs => a == b && charListPre as bs

/-- `s.startsWith(p)`, modelled on the character lists. -/
def jsStartsWith (s p : String) : Bool := charListPre p.data s.data

/-- `String.prototype.trim`: strip whitespace from both ends, modelled
on the character list. -/
def jsTrim (s : String) : String :=
  String.mk (((s.data.dropWhile Char.isWhitespace).reverse.dropWhile
    Char.isWhitespace).reverse)

/-- One row of the `words` table as the route reads it: every field the
route's code touches.  `none` is SQL/JS `null`. -/
structure Row where
  id : Option String := none
  term : Option String := none
  username : Option String := none
  avatar_url : Option String := none
  client_token : Option String := none
  created_at : Option String := none
  layer_index : Option Nat := none
  slot_index : Option Nat := none
deriving DecidableEq, Repr

/-- The in-memory occupancy map, `Map<number, Set<number>>` in the source:
an association list from a layer index to the list of slot indices claimed
in that layer (insertion-ordered and duplicate-free, like a JS `Set`). -/
abbrev OccMap := List (Nat × List Nat)

/-- `occupied.get(l)` with the empty set as default. -/
def OccMap.getLayer (m : OccMap) (l : Nat) : List Nat :=
  match m.find? (fun p => p.1 == l) with
  | some p => p.2
  | none => []

/-- `occupied.has(l)`. -/
def OccMap.hasLayer (m : OccMap) (l : Nat) : Bool :=
  (m.find? (fun p => p.1 == l)).isSome

/-- `if (!occupied.has(l)) occupied.set(l, new Set())`. -/
def OccMap.ensureLayer (m : OccMap) (l : Nat) : OccMap :=
  if m.hasLayer l then m else m ++ [(l, [])]

/-- `occupied.get(l)!.add(s)` (after the layer has been ensured). -/
def OccMap.addSlot (m : OccMap) (l : Nat) (s : Nat) : OccMap :=
  if m.hasLayer l then
    m.map (fun p => if p.1 == l then (p.1, if p.2.contains s then p.2 else p.2 ++ [s]) else p)
  else m ++ [(l, [s])]

/-- Whether coordinate `(l, s)` is recorded as occupied in the map. -/
def OccMap.memSlot (m : OccMap) (l : Nat) (s : Nat) : Bool :=
  (m.getLayer l).contains s

/-! ## The current API route (`src/app/api/words/route.ts`, first document) -/

namespace Api

def BASE_LAYER_CAPACITY : Nat := 4

/-- `CUSTOM_LAYER_CAPACITIES = { 3: 24, 4: 24 }`. -/
def CUSTOM_LAYER_CAPACITIES : Nat → Option Nat := fun layerIndex =>
  if layerIndex == 3 then some 24
  else if layerIndex == 4 then some 24
  else none

def MAX_LAYER_INDEX : Nat := 4

def MAX_FILE_SIZE : Nat := 5 * 1024 * 1024

/-- `getLayerCapacity` of the route: 0 beyond the maximum layer, the
custom table where it applies, `BASE * 2 ** layerIndex` otherwise. -/
def getLayerCapacity (layerIndex : Nat) : Nat :=
  if layerIndex > MAX_LAYER_INDEX then 0
  else
    match CUSTOM_LAYER_CAPACITIES layerIndex with
    | some capacity => capacity
    | none => BASE_LAYER_CAPACITY * 2 ^ layerIndex

/-- The inner `for (slotIndex = 0; slotIndex < capacity; ...)` loop of
`claimNextSlot`: first slot index `≥ slotIndex` not in `used`, scanning
`remaining` further indices. -/
def findFreeSlot (used : List Nat) (slotIndex : Nat) : Nat → Option Nat
  | 0 => none
  | remaining + 1 =>
    if used.contains slotIndex then findFreeSlot used (slotIndex + 1) remaining
    else some slotIndex

/-- The outer `for (layerIndex = 0; layerIndex <= MAX_LAYER_INDEX; ...)`
loop of `claimNextSlot`; `remaining` counts the layers still to scan, so
the loop exits when it reaches 0 (the source exits when
`layerIndex > MAX_LAYER_INDEX`; the caller passes
`remaining = MAX_LAYER_INDEX + 1 - layerIndex`). -/
def claimLoop (occupied : OccMap) (layerIndex : Nat) : Nat → OccMap × Option (Nat × Nat)
  | 0 => (occupied, none)
  | remaining + 1 =>
    let capacity := getLayerCapacity layerIndex
    if capacity == 0 then claimLoop occupied (layerIndex + 1) remaining
    else
      let ensured := occupied.ensureLayer layerIndex
      let used := ensured.getLayer layerIndex
      match findFreeSlot used 0 capacity with
      | some slotIndex => (ensured.addSlot layerIndex slotIndex, some (layerIndex, slotIndex))
      | none => claimLoop ensured (layerIndex + 1) remaining

/-- `claimNextSlot`: scan layers `0..MAX_LAYER_INDEX`, claim the first
free slot (destructively marking it occupied), `none` when all layers up
to the maximum are full. -/
def claimNextSlot (occupied : OccMap) : OccMap × Option (Nat × Nat) :=
  claimLoop occupied 0 (MAX_LAYER_INDEX + 1)

/-- The results of `n` successive `claimNextSlot` calls on the same
(threaded) occupancy map. -/
def claimSeq (occupied : OccMap) : Nat → List (Nat × Nat)
  | 0 => []
  | n + 1 =>
    match claimNextSlot occupied with
    | (occupied1, some c) => c :: claimSeq occupied1 n
    | (occupied1, none) => claimSeq occupied1 n

/-- `buildOccupiedMap`: fold the entries, inserting every coordinate that
passes the in-range checks of the source. -/
def buildOccupiedMap (entries : List Row) : OccMap :=
  entries.foldl
    (fun occupied entry =>
      match entry.layer_index, entry.slot_index with
      | some l, some s =>
        if l > MAX_LAYER_INDEX then occupied
        else
          let capacity := getLayerCapacity l
          if capacity == 0 || decide (s ≥ capacity) then occupied
          else (occupied.ensureLayer l).addSlot l s
      | _, _ => occupied)
    []

/-- The coordinate-normalization loop at the top of `GET` (lines
101-118): a row whose stored coordinate is out of range has both fields
reset to `null`. -/
def normalizeRow (w : Row) : Row :=
  match w.layer_index, w.slot_index with
  | some l, some s =>
    if l > MAX_LAYER_INDEX then { w with layer_index := none, slot_index := none }
    else
      let capacity := getLayerCapacity l
      if capacity == 0 || decide (s ≥ capacity) then
        { w with layer_index := none, slot_index := none }
      else w
  | _, _ => w

/-- `typeof word.layer_index === "number" && typeof word.slot_index === "number"`. -/
def isPositioned (w : Row) : Bool :=
  w.layer_index.isSome && w.slot_index.isSome

/-- A stored coordinate is valid when it passes all three range checks
of the normalization loop. -/
def validCoord (l s : Nat) : Prop :=
  l ≤ MAX_LAYER_INDEX ∧ 0 < getLayerCapacity l ∧ s < getLayerCapacity l

instance (l s : Nat) : Decidable (validCoord l s) := by
  unfold validCoord
  infer_instance

/-- Both coordinate fields reset to `null`. -/
def resetCoords (w : Row) : Row :=
  { w with layer_index := none, slot_index := none }

/-- The both-or-neither invariant: a row is never half-assigned. -/
def bothOrNeither (w : Row) : Bool :=
  (w.layer_index.isSome && w.slot_index.isSome) ||
    (w.layer_index.isNone && w.slot_index.isNone)

/-- Sort key of an unassigned row: `word.created_at ?? ""`. -/
def createdKey (w : Row) : String := w.created_at.getD ""

/-- The `forEach` over the sorted unassigned rows: claim a slot for each
row in order, threading the occupancy map.  The result records, per
original row index, the coordinate claimed for it (`none` when the
structure was full and the source resets both fields to `null`). -/
def assignClaims (occupied : OccMap) :
    List (Nat × Row) → OccMap × List (Nat × Option (Nat × Nat))
  | [] => (occupied, [])
  | (i, _) :: rest =>
    match claimNextSlot occupied with
    | (occupied1, some c) =>
      let next := assignClaims occupied1 rest
      (next.1, (i, some c) :: next.2)
    | (occupied1, none) =>
      let next := assignClaims occupied1 rest
      (next.1, (i, none) :: next.2)

/-- The claim recorded for row index `i`, if `i` was among the
unassigned rows. -/
def lookupClaim (asg : List (Nat × Option (Nat × Nat))) (i : Nat) :
    Option (Option (Nat × Nat)) :=
  (asg.find? (fun p => p.1 == i)).map (fun p => p.2)

/-- Write the claimed coordinates back into the row list (the source
mutates the row objects in place; the rows are identified here by their
index in the list). -/
def applyAssignments (rows : List Row) (asg : List (Nat × Option (Nat × Nat))) :
    List Row :=
  rows.enum.map (fun p =>
    match lookupClaim asg p.1 with
    | some (some (l, s)) => { p.2 with layer_index := some l, slot_index := some s }
    | some none => { p.2 with layer_index := none, slot_index := none }
    | none => p.2)

/-- The pure core of the `GET` reconciliation pass (lines 99-144):
normalize out-of-range coordinates, build the occupancy map, sort the
unassigned rows by `created_at` (JS `Array.prototype.sort` is a stable
sort, and a stable sort by a total preorder is unique, so the stable
`List.insertionSort` computes the same list), claim a slot for each in
order, and collect the batch of updates to persist (only rows with a
truthy `id` are pushed).  Returns the final rows and the update batch. -/
def reconcileRows (data : List Row) : List Row × List (String × Nat × Nat) :=
  let rows := data.map normalizeRow
  let occupied := buildOccupiedMap rows
  let unassigned := rows.enum.filter (fun p => !isPositioned p.2)
  let sortedUnassigned :=
    List.insertionSort (fun a b => localeLe (createdKey a.2) (createdKey b.2) = true)
      unassigned
  let asg := (assignClaims occupied sortedUnassigned).2
  let rows1 := applyAssignments rows asg
  let updates := asg.filterMap (fun p =>
    match p.2, rows[p.1]? with
    | some (l, s), some w => if truthy w.id then some (w.id.getD "", l, s) else none
    | _, _ => none)
  (rows1, updates)

/-- The filter of step 4 of the pass: the (index, row) pairs of the rows
still lacking a coordinate. -/
def unassignedOf (rows : List Row) : List (Nat × Row) :=
  rows.enum.filter (fun p => !isPositioned p.2)

/-- The sort of step 5 of the pass, by `created_at` ascending. -/
def sortedUnassignedOf (rows : List Row) : List (Nat × Row) :=
  List.insertionSort (fun a b => localeLe (createdKey a.2) (createdKey b.2) = true)
    (unassignedOf rows)

/-- The per-index claims computed by the pass on (already normalized)
rows. -/
def asgOf (rows : List Row) : List (Nat × Option (Nat × Nat)) :=
  (assignClaims (buildOccupiedMap rows) (sortedUnassignedOf rows)).2

/-- Outcome of a store read. -/
inductive FetchResult
  | ok (data : List Row)
  | fail
deriving DecidableEq, Repr

/-- Outcome of a store write. -/
inductive WriteResult
  | ok
  | fail
deriving DecidableEq, Repr

/-- The `GET` response: HTTP status plus the `words` payload when present. -/
structure GETResponse where
  status : Nat
  words : Option (List Row)
deriving DecidableEq, Repr

/-- The `!word.avatar_url || word.avatar_url.startsWith("http")` guard
plus public-URL resolution; `resolve` is the external blob store's
`getPublicUrl`. -/
def resolveAvatarUrl (resolve : String → Option String) (w : Row) : Row :=
  if !truthy w.avatar_url || jsStartsWith (w.avatar_url.getD "") "http" then w
  else { w with avatar_url := resolve (w.avatar_url.getD "") }

/-- The `GET` handler with its two store effects (initial fetch, batch
upsert of newly assigned coordinates) replaced by explicit outcomes.
The source only logs a failed upsert (`console.error`), so the `upsert`
outcome influences no branch of the response. -/
def GETModel (fetch : FetchResult) (upsert : WriteResult)
    (resolve : String → Option String) : GETResponse :=
  match fetch with
  | .fail => { status := 500, words := none }
  | .ok data =>
    let rows := (reconcileRows data).1
    match upsert with
    | _ => { status := 200, words := some (rows.map (resolveAvatarUrl resolve)) }

/-- An uploaded avatar file as `POST` sees it. -/
structure AvatarFile where
  name : String
  size : Nat
deriving DecidableEq, Repr

/-- The `POST` form fields. -/
structure PostInput where
  term : Option String := none
  username : Option String := none
  clientToken : Option String := none
  avatar : Option AvatarFile := none
deriving Repr

/-- The externally visible store state: the `words` table rows and the
paths present in the avatar blob bucket. -/
structure StoreState where
  entries : List Row := []
  blobs : List String := []
deriving DecidableEq, Repr

/-- Result of a `POST`: HTTP status and the store state afterwards. -/
structure PostOutcome where
  status : Nat
  state : StoreState
deriving DecidableEq, Repr

/-- `avatar.name.replace(/[^a-zA-Z0-9._-]/g, "_")`. -/
def sanitizeFileName (s : String) : String :=
  String.mk (s.data.map (fun c =>
    if c.isAlphanum || c == '.' || c == '_' || c == '-' then c else '_'))

/-- The tail of `POST` after the avatar-upload step (lines 221-303):
fetch existing entries, duplicate-term and duplicate-token checks, slot
claim, insert.  `lower` is the `toLocaleLowerCase("tr")` builtin. -/
def postAfterUpload (st : StoreState) (term username clientToken : String)
    (avatarPath : Option String) (lower : String → String)
    (fetchOk insertOk : Bool) (newId newCreatedAt : String) : PostOutcome :=
  if !fetchOk then { status := 500, state := st }
  else
    let existingEntries := st.entries
    let normalizedTerm := lower term
    if existingEntries.any (fun entry =>
        lower (jsTrim (entry.term.getD "")) == normalizedTerm) then
      { status := 409, state := st }
    else if existingEntries.any (fun entry =>
        entry.client_token == some clientToken) then
      { status := 409, state := st }
    else
      match (claimNextSlot (buildOccupiedMap existingEntries)).2 with
      | none => { status := 409, state := st }
      | some (layerIndex, slotIndex) =>
        if !insertOk then { status := 500, state := st }
        else
          { status := 201,
            state := { st with entries := st.entries ++
              [{ id := some newId, term := some term, username := some username,
                 avatar_url := avatarPath, client_token := some clientToken,
                 created_at := some newCreatedAt,
                 layer_index := some layerIndex, slot_index := some slotIndex }] } }

/-- A store in which every slot of every layer up to the maximum is
taken: one row per coordinate of the capacity table. -/
def fullStore : List Row :=
  (List.range (MAX_LAYER_INDEX + 1)).flatMap (fun l =>
    (List.range (getLayerCapacity l)).map (fun s =>
      { layer_index := some l, slot_index := some s }))

/-- The `POST` handler (lines 174-303) with external effects as
parameters: `timestamp` is `Date.now()`, `uploadOk`/`fetchOk`/`insertOk`
are the outcomes of the blob upload, the existing-entries fetch and the
insert, and `newId`/`newCreatedAt` are the store-assigned fields of the
inserted row.  Note the avatar upload happens before any duplicate
check, and no branch ever removes an uploaded blob. -/
def POSTModel (st : StoreState) (inp : PostInput) (lower : String → String)
    (timestamp : Nat) (uploadOk fetchOk insertOk : Bool)
    (newId newCreatedAt : String) : PostOutcome :=
  let term := inp.term.map jsTrim
  let username := inp.username.map jsTrim
  let clientToken := inp.clientToken.map jsTrim
  if !truthy term || !truthy username || !truthy clientToken then
    { status := 400, state := st }
  else
    let termV := term.getD ""
    let usernameV := username.getD ""
    let clientTokenV := clientToken.getD ""
    match inp.avatar with
    | some avatar =>
      if avatar.size > 0 then
        if avatar.size > MAX_FILE_SIZE then { status := 413, state := st }
        else if !uploadOk then { status := 500, state := st }
        else
          let path := clientTokenV ++ "/" ++ toString timestamp ++ "-" ++
            sanitizeFileName avatar.name
          postAfterUpload { st with blobs := st.blobs ++ [path] }
            termV usernameV clientTokenV (some path) lower fetchOk insertOk
            newId newCreatedAt
      else
        postAfterUpload st termV usernameV clientTokenV none lower
          fetchOk insertOk newId newCreatedAt
    | none =>
      postAfterUpload st termV usernameV clientTokenV none lower
        fetchOk insertOk newId newCreatedAt

end Api

/-! ## The client page (`src/app/page.tsx`, first document) -/

namespace ClientPage

def BASE_LAYER_CAPACITY : Nat := 4

/-- `CUSTOM_LAYER_CAPACITIES = { 3: 24 }`. -/
def CUSTOM_LAYER_CAPACITIES : Nat → Option Nat := fun layerIndex =>
  if layerIndex == 3 then some 24 else none

def MAX_LAYER_INDEX : Nat := 4

/-- `getLayerCapacity` of the client page; note that the
`layerIndex > MAX_LAYER_INDEX` guard sits inside the custom-table branch. -/
def getLayerCapacity (layerIndex : Nat) : Nat :=
  match CUSTOM_LAYER_CAPACITIES layerIndex with
  | some capacity =>
    if layerIndex > MAX_LAYER_INDEX then 0 else capacity
  | none => BASE_LAYER_CAPACITY * 2 ^ layerIndex

end ClientPage

/-! ## The older route variant (`src/app/api/words/route.ts`, second
document): `BASE_LAYER_CAPACITY = 3`, no maximum layer index. -/

namespace Legacy

def BASE_LAYER_CAPACITY : Nat := 3

/-- `getLayerCapacity` of the older route: pure exponential growth,
no cap. -/
def getLayerCapacity (layerIndex : Nat) : Nat :=
  BASE_LAYER_CAPACITY * 2 ^ layerIndex

/-- The `while (true)` loop of the older `claimNextSlot`, run for at
most `fuel` iterations; the source loop has no bound, so finding a fuel
that suffices is exactly the termination claim about it. -/
def claimLoop (occupied : OccMap) (layerIndex : Nat) :
    Nat → Option (OccMap × Nat × Nat)
  | 0 => none
  | fuel + 1 =>
    let capacity := getLayerCapacity layerIndex
    let ensured := occupied.ensureLayer layerIndex
    let used := ensured.getLayer layerIndex
    match Api.findFreeSlot used 0 capacity with
    | some slotIndex => some (ensured.addSlot layerIndex slotIndex, layerIndex, slotIndex)
    | none => claimLoop ensured (layerIndex + 1) fuel

/-- Total number of slot indices recorded in the map, an upper bound for
the occupancy of any single layer. -/
def totalSize (m : OccMap) : Nat :=
  (m.map (fun p => p.2.length)).sum

end Legacy

/-! ## Lemmas about the occupancy-map operations -/

namespace OccMap

theorem contains_eq_decide_mem (xs : List Nat) (a : Nat) :
    xs.contains a = decide (a ∈ xs) := by
  induction xs with
  | nil => rfl
  | cons b xs ih =>
    simp [List.contains_cons, ih, List.mem_cons]

theorem getLayer_nil (L : Nat) : OccMap.getLayer [] L = [] := rfl

theorem getLayer_cons (p : Nat × List Nat) (m : OccMap) (L : Nat) :
    OccMap.getLayer (p :: m) L = if p.1 = L then p.2 else m.getLayer L := by
  unfold OccMap.getLayer
  rw [List.find?_cons]
  by_cases h : p.1 = L
  · have hb : (p.1 == L) = true := by simpa using h
    simp [hb, h]
  · have hb : (p.1 == L) = false := by simpa using h
    simp [hb, h]

theorem hasLayer_cons (p : Nat × List Nat) (m : OccMap) (L : Nat) :
    OccMap.hasLayer (p :: m) L = (decide (p.1 = L) || m.hasLayer L) := by
  unfold OccMap.hasLayer
  rw [List.find?_cons]
  by_cases h : p.1 = L
  · have hb : (p.1 == L) = true := by simpa using h
    simp [hb, h]
  · have hb : (p.1 == L) = false := by simpa using h
    simp [hb, h]

theorem getLayer_eq_nil_of_not_hasLayer (m : OccMap) (L : Nat)
    (h : m.hasLayer L = false) : m.getLayer L = [] := by
  induction m with
  | nil => rfl
  | cons p m ih =>
    rw [hasLayer_cons] at h
    rw [getLayer_cons]
    simp only [Bool.or_eq_false_iff, decide_eq_false_iff_not] at h
    simp [h.1, ih h.2]

theorem getLayer_append_single (m : OccMap) (q : Nat × List Nat) (L : Nat) :
    OccMap.getLayer (m ++ [q]) L =
      (if m.hasLayer L then m.getLayer L else if q.1 = L then q.2 else []) := by
  induction m with
  | nil => simp [getLayer_cons, OccMap.hasLayer, getLayer_nil]
  | cons p m ih =>
    by_cases h : p.1 = L
    · simp [List.cons_append, getLayer_cons, hasLayer_cons, h]
    · simp [List.cons_append, getLayer_cons, hasLayer_cons, h, ih]

theorem getLayer_ensureLayer (m : OccMap) (l L : Nat) :
    (m.ensureLayer l).getLayer L = m.getLayer L := by
  unfold OccMap.ensureLayer
  split
  · rfl
  · rename_i h
    rw [Bool.not_eq_true] at h
    rw [getLayer_append_single]
    by_cases hL : m.hasLayer L = true
    · simp [hL]
    · rw [Bool.not_eq_true] at hL
      simp only [hL, Bool.false_eq_true, if_false]
      rw [getLayer_eq_nil_of_not_hasLayer _ _ hL]
      by_cases he : l = L
      · subst he; simp
      · simp [he]

theorem memSlot_ensureLayer (m : OccMap) (l L S : Nat) :
    (m.ensureLayer l).memSlot L S = m.memSlot L S := by
  unfold OccMap.memSlot
  rw [getLayer_ensureLayer]

theorem getLayer_map_update (m : OccMap) (l : Nat) (f : List Nat → List Nat) (L : Nat) :
    OccMap.getLayer (m.map (fun p => if p.1 = l then (p.1, f p.2) else p)) L =
      (if l = L then (if m.hasLayer L then f (m.getLayer L) else []) else m.getLayer L) := by
  induction m with
  | nil =>
    simp only [List.map_nil, getLayer_nil, OccMap.hasLayer, List.find?_nil,
      Option.isSome_none, Bool.false_eq_true, if_false]
    by_cases h : l = L <;> simp [h]
  | cons p m ih =>
    simp only [List.map_cons, getLayer_cons]
    by_cases hpl : p.1 = l
    · by_cases hpL : p.1 = L
      · have hlL : l = L := hpl ▸ hpL
        simp [hpl, hpL, hasLayer_cons, hlL, getLayer_cons]
      · have hlL : ¬ l = L := fun he => hpL (hpl.trans he)
        simp [hpl, hpL, hasLayer_cons, hlL, getLayer_cons, ih]
    · by_cases hpL : p.1 = L
      · have hlL : ¬ l = L := fun he => hpl (hpL.trans he.symm)
        have hLl : ¬ L = l := fun he => hlL he.symm
        simp [hpl, hpL, hlL, hLl]
      · simp [hpl, hpL, hasLayer_cons, getLayer_cons, ih]

theorem memSlot_addSlot (m : OccMap) (l s L S : Nat) :
    (m.addSlot l s).memSlot L S =
      (m.memSlot L S || (decide (L = l) && decide (S = s))) := by
  unfold OccMap.memSlot OccMap.addSlot
  simp only [beq_iff_eq]
  split
  · rename_i h
    rw [getLayer_map_update m l (fun u => if u.contains s = true then u else u ++ [s]) L]
    by_cases hlL : l = L
    · subst hlL
      simp only [h, if_pos rfl, if_pos rfl]
      by_cases hc : (m.getLayer l).contains s = true
      · simp only [hc, if_pos rfl]
        by_cases hS : S = s
        · subst hS
          simp [contains_eq_decide_mem] at hc ⊢
          simp [hc]
        · simp [hS]
      · rw [Bool.not_eq_true] at hc
        simp only [hc, Bool.false_eq_true, if_false]
        simp only [contains_eq_decide_mem, List.mem_append, List.mem_singleton] at hc ⊢
        by_cases hS : S = s
        · subst hS; simp
        · simp [hS]
    · have hLl : ¬ L = l := fun h2 => hlL h2.symm
      simp [hlL, hLl]
  · rename_i h
    rw [Bool.not_eq_true] at h
    rw [getLayer_append_single]
    by_cases hL : m.hasLayer L = true
    · have hne : ¬ (L = l) := fun he => by rw [he] at hL; rw [hL] at h; cases h
      simp [hL, hne]
    · rw [Bool.not_eq_true] at hL
      rw [getLayer_eq_nil_of_not_hasLayer _ _ hL]
      simp only [hL, Bool.false_eq_true, if_false]
      by_cases he : l = L
      · subst he
        simp only [if_pos rfl]
        by_cases hS : S = s
        · subst hS; simp [List.contains_cons]
        · simp [List.contains_cons, hS, contains_eq_decide_mem]
      · have : ¬ (L = l) := fun h2 => he h2.symm
        simp [he, this]

end OccMap

/-! ## Lemmas about the slot-claim loop of the current route -/

namespace Api

theorem findFreeSlot_some (used : List Nat) (i r s : Nat)
    (h : findFreeSlot used i r = some s) :
    used.contains s = false ∧ i ≤ s ∧ s < i + r ∧
      ∀ t, i ≤ t → t < s → used.contains t = true := by
  induction r generalizing i with
  | zero => simp [findFreeSlot] at h
  | succ r ih =>
    unfold findFreeSlot at h
    by_cases hc : used.contains i = true
    · rw [if_pos hc] at h
      obtain ⟨h1, h2, h3, h4⟩ := ih (i + 1) h
      refine ⟨h1, by omega, by omega, fun t ht1 ht2 => ?_⟩
      by_cases hti : t = i
      · rw [hti]; exact hc
      · exact h4 t (by omega) ht2
    · rw [Bool.not_eq_true] at hc
      rw [if_neg (by rw [hc]; simp)] at h
      injection h with h
      subst h
      exact ⟨hc, Nat.le_refl _, by omega, fun t ht1 ht2 => by omega⟩

theorem findFreeSlot_none (used : List Nat) (i r : Nat)
    (h : findFreeSlot used i r = none) :
    ∀ t, i ≤ t → t < i + r → used.contains t = true := by
  induction r generalizing i with
  | zero => intro t h1 h2; omega
  | succ r ih =>
    unfold findFreeSlot at h
    by_cases hc : used.contains i = true
    · rw [if_pos hc] at h
      intro t h1 h2
      by_cases hti : t = i
      · rw [hti]; exact hc
      · exact ih (i + 1) h t (by omega) (by omega)
    · rw [Bool.not_eq_true] at hc
      rw [if_neg (by rw [hc]; simp)] at h
      cases h

theorem findFreeSlot_isSome_of_free (used : List Nat) (i r s : Nat)
    (hs : used.contains s = false) (h1 : i ≤ s) (h2 : s < i + r) :
    (findFreeSlot used i r).isSome = true := by
  cases hf : findFreeSlot used i r with
  | some t => rfl
  | none =>
    have := findFreeSlot_none used i r hf s h1 h2
    rw [this] at hs
    cases hs

theorem claimLoop_memSlot (m : OccMap) (li r : Nat) (m' : OccMap)
    (o : Option (Nat × Nat)) (h : claimLoop m li r = (m', o)) (L S : Nat) :
    m'.memSlot L S = (m.memSlot L S || decide (o = some (L, S))) := by
  revert h
  induction r generalizing m li with
  | zero =>
    intro h
    simp only [claimLoop] at h
    cases h
    simp
  | succ r ih =>
    intro h
    simp only [claimLoop] at h
    split at h
    · rw [ih m (li + 1) h]
    · split at h
      · rename_i slotIndex hfind
        cases h
        rw [OccMap.memSlot_addSlot, OccMap.memSlot_ensureLayer]
        by_cases hL : L = li
        · by_cases hS : S = slotIndex
          · simp [hL, hS]
          · have hS2 : ¬ slotIndex = S := fun he => hS he.symm
            have : ¬ ((li, slotIndex) = (L, S)) := by
              simp [Prod.ext_iff]
              intro _
              exact hS2
            simp [hL, hS, hS2, this]
        · have : ¬ ((li, slotIndex) = (L, S)) := by
            simp [Prod.ext_iff]
            intro he
            exact absurd he.symm hL
          simp [hL, this]
      · rename_i hfind
        rw [ih _ (li + 1) h, OccMap.memSlot_ensureLayer]

theorem claimLoop_none (m : OccMap) (li r : Nat) (m' : OccMap)
    (h : claimLoop m li r = (m', none)) :
    ∀ l, li ≤ l → l < li + r → ∀ s, s < getLayerCapacity l →
      m.memSlot l s = true := by
  revert h
  induction r generalizing m li with
  | zero => intro h l h1 h2; omega
  | succ r ih =>
    intro h l h1 h2 s h3
    simp only [claimLoop] at h
    split at h
    · rename_i hcap
      simp only [beq_iff_eq] at hcap
      by_cases hl : l = li
      · rw [hl, hcap] at h3; omega
      · exact ih m (li + 1) h l (by omega) (by omega) s h3
    · split at h
      · simp at h
      · rename_i hfind
        have hmem := ih _ (li + 1) h
        by_cases hl : l = li
        · subst hl
          have := findFreeSlot_none _ _ _ hfind s (by omega) (by omega)
          unfold OccMap.memSlot
          rw [← OccMap.getLayer_ensureLayer m l l]
          exact this
        · have := hmem l (by omega) (by omega) s h3
          rw [OccMap.memSlot_ensureLayer] at this
          exact this

theorem claimLoop_full_none (m : OccMap) (li r : Nat)
    (h : ∀ l, li ≤ l → l < li + r → ∀ s, s < getLayerCapacity l →
      m.memSlot l s = true) :
    (claimLoop m li r).2 = none := by
  induction r generalizing m li with
  | zero => rfl
  | succ r ih =>
    simp only [claimLoop]
    split
    · exact ih m (li + 1) (fun l h1 h2 s h3 => h l (by omega) (by omega) s h3)
    · split
      · rename_i slotIndex hfind
        obtain ⟨h1, h2, h3, h4⟩ := findFreeSlot_some _ _ _ _ hfind
        have := h li (Nat.le_refl _) (by omega) slotIndex (by omega)
        unfold OccMap.memSlot at this
        rw [← OccMap.getLayer_ensureLayer m li li] at this
        rw [this] at h1
        cases h1
      · refine ih _ (li + 1) (fun l h1 h2 s h3 => ?_)
        rw [OccMap.memSlot_ensureLayer]
        exact h l (by omega) (by omega) s h3

theorem claimLoop_some (m : OccMap) (li r : Nat) (m' : OccMap) (l s : Nat)
    (h : claimLoop m li r = (m', some (l, s))) :
    li ≤ l ∧ l < li + r ∧ s < getLayerCapacity l ∧ m.memSlot l s = false ∧
      ∀ l2 s2, li ≤ l2 → (l2 < l ∨ (l2 = l ∧ s2 < s)) →
        s2 < getLayerCapacity l2 → m.memSlot l2 s2 = true := by
  revert h
  induction r generalizing m li with
  | zero => intro h; simp only [claimLoop] at h; simp at h
  | succ r ih =>
    intro h
    simp only [claimLoop] at h
    split at h
    · rename_i hcap
      simp only [beq_iff_eq] at hcap
      obtain ⟨h1, h2, h3, h4, h5⟩ := ih m (li + 1) h
      refine ⟨by omega, by omega, h3, h4, fun l2 s2 hl2 hlt hs2 => ?_⟩
      by_cases he : l2 = li
      · rw [he, hcap] at hs2; omega
      · exact h5 l2 s2 (by omega) hlt hs2
    · split at h
      · rename_i slotIndex hfind
        rw [Prod.mk.injEq] at h
        obtain ⟨hm, ho⟩ := h
        injection ho with ho
        rw [Prod.mk.injEq] at ho
        obtain ⟨hl, hs⟩ := ho
        subst hl
        subst hs
        obtain ⟨h1, h2, h3, h4⟩ := findFreeSlot_some _ _ _ _ hfind
        have husid : (m.ensureLayer li).getLayer li = m.getLayer li :=
          OccMap.getLayer_ensureLayer m li li
        refine ⟨Nat.le_refl _, by omega, by omega, ?_, ?_⟩
        · unfold OccMap.memSlot
          rw [← husid]
          exact h1
        · intro l2 s2 hl2 hlt hs2
          rcases hlt with hlt | ⟨he, hlt⟩
          · omega
          · subst he
            unfold OccMap.memSlot
            rw [← husid]
            exact h4 s2 (by omega) hlt
      · rename_i hfind
        obtain ⟨h1, h2, h3, h4, h5⟩ := ih _ (li + 1) h
        rw [OccMap.memSlot_ensureLayer] at h4
        refine ⟨by omega, by omega, h3, h4, fun l2 s2 hl2 hlt hs2 => ?_⟩
        by_cases he : l2 = li
        · subst he
          have := findFreeSlot_none _ _ _ hfind s2 (by omega) (by omega)
          unfold OccMap.memSlot
          rw [← OccMap.getLayer_ensureLayer m l2 l2]
          exact this
        · have := h5 l2 s2 (by omega) hlt hs2
          rw [OccMap.memSlot_ensureLayer] at this
          exact this

/-- Specialization to `claimNextSlot` (layers `0..MAX_LAYER_INDEX`). -/
theorem claimNextSlot_some (m m' : OccMap) (l s : Nat)
    (h : claimNextSlot m = (m', some (l, s))) :
    l ≤ MAX_LAYER_INDEX ∧ s < getLayerCapacity l ∧ m.memSlot l s = false ∧
      m'.memSlot l s = true ∧
      ∀ l2 s2, (l2 < l ∨ (l2 = l ∧ s2 < s)) → s2 < getLayerCapacity l2 →
        m.memSlot l2 s2 = true := by
  obtain ⟨h1, h2, h3, h4, h5⟩ := claimLoop_some m 0 (MAX_LAYER_INDEX + 1) m' l s h
  have hmem := claimLoop_memSlot m 0 (MAX_LAYER_INDEX + 1) m' (some (l, s)) h l s
  refine ⟨by omega, h3, h4, ?_, fun l2 s2 hlt hs2 => h5 l2 s2 (Nat.zero_le _) hlt hs2⟩
  rw [hmem]
  simp

theorem claimNextSlot_none (m m' : OccMap) (h : claimNextSlot m = (m', none)) :
    ∀ l, l ≤ MAX_LAYER_INDEX → ∀ s, s < getLayerCapacity l →
      m.memSlot l s = true := by
  intro l hl s hs
  exact claimLoop_none m 0 (MAX_LAYER_INDEX + 1) m' h l (Nat.zero_le _) (by
    unfold MAX_LAYER_INDEX at hl ⊢; omega) s hs

theorem claimNextSlot_full_none (m : OccMap)
    (h : ∀ l, l ≤ MAX_LAYER_INDEX → ∀ s, s < getLayerCapacity l →
      m.memSlot l s = true) :
    (claimNextSlot m).2 = none := by
  refine claimLoop_full_none m 0 (MAX_LAYER_INDEX + 1) (fun l h1 h2 s h3 => ?_)
  exact h l (by unfold MAX_LAYER_INDEX at h2 ⊢; omega) s h3

theorem claimNextSlot_memSlot (m m' : OccMap) (o : Option (Nat × Nat))
    (h : claimNextSlot m = (m', o)) (L S : Nat) :
    m'.memSlot L S = (m.memSlot L S || decide (o = some (L, S))) :=
  claimLoop_memSlot m 0 (MAX_LAYER_INDEX + 1) m' o h L S

theorem claimSeq_mem (n : Nat) (m : OccMap) (b : Nat × Nat)
    (hb : b ∈ claimSeq m n) :
    m.memSlot b.1 b.2 = false ∧ b.2 < getLayerCapacity b.1 := by
  induction n generalizing m with
  | zero => simp [claimSeq] at hb
  | succ n ih =>
    rw [claimSeq] at hb
    rcases hc : claimNextSlot m with ⟨m1, o⟩
    rw [hc] at hb
    cases o with
    | some c =>
      rcases c with ⟨l, s⟩
      rcases List.mem_cons.mp hb with hb | hb
      · subst hb
        obtain ⟨_, h2, h3, _, _⟩ := claimNextSlot_some m m1 l s hc
        exact ⟨h3, h2⟩
      · obtain ⟨h1, h2⟩ := ih m1 hb
        have hme := claimNextSlot_memSlot m m1 _ hc b.1 b.2
        rw [hme] at h1
        exact ⟨(Bool.or_eq_false_iff.mp h1).1, h2⟩
    | none =>
      obtain ⟨h1, h2⟩ := ih m1 hb
      have hme := claimNextSlot_memSlot m m1 none hc b.1 b.2
      rw [hme] at h1
      simp only [Bool.or_eq_false_iff] at h1
      exact ⟨h1.1, h2⟩

theorem claimSeq_pairwise_scanLt (n : Nat) (m : OccMap) :
    (claimSeq m n).Pairwise (fun a b => a.1 < b.1 ∨ (a.1 = b.1 ∧ a.2 < b.2)) := by
  induction n generalizing m with
  | zero => simp [claimSeq]
  | succ n ih =>
    rw [claimSeq]
    rcases hc : claimNextSlot m with ⟨m1, o⟩
    cases o with
    | none => exact ih m1
    | some c =>
      rcases c with ⟨l, s⟩
      refine List.Pairwise.cons ?_ (ih m1)
      intro b hb
      obtain ⟨hfresh, hvalid⟩ := claimSeq_mem n m1 b hb
      obtain ⟨hle, hcap, hmfresh, hmem1, hmin⟩ := claimNextSlot_some m m1 l s hc
      rcases Nat.lt_trichotomy b.1 l with h | h | h
      · have hocc := hmin b.1 b.2 (Or.inl h) hvalid
        have hm1 : m1.memSlot b.1 b.2 = true := by
          rw [claimNextSlot_memSlot m m1 _ hc b.1 b.2, hocc]
          simp
        rw [hm1] at hfresh
        cases hfresh
      · rcases Nat.lt_trichotomy b.2 s with h2 | h2 | h2
        · have hocc := hmin b.1 b.2 (Or.inr ⟨h, h2⟩) hvalid
          have hm1 : m1.memSlot b.1 b.2 = true := by
            rw [claimNextSlot_memSlot m m1 _ hc b.1 b.2, hocc]
            simp
          rw [hm1] at hfresh
          cases hfresh
        · have hbls : b = (l, s) := by
            rcases b with ⟨b1, b2⟩
            simp only [Prod.mk.injEq]
            exact ⟨h, h2⟩
          rw [hbls] at hfresh
          rw [hmem1] at hfresh
          cases hfresh
        · exact Or.inr ⟨h.symm, h2⟩
      · exact Or.inl h

end Api

/-! ## Lemmas for the unbounded legacy claim loop -/

theorem exists_free_of_length_lt (used : List Nat) (cap : Nat)
    (h : used.length < cap) :
    ∃ s, s < cap ∧ used.contains s = false := by
  by_contra hcon
  push_neg at hcon
  have hsub : ∀ s ∈ List.range cap, s ∈ used := by
    intro s hs
    have hc := hcon s (List.mem_range.mp hs)
    rw [OccMap.contains_eq_decide_mem] at hc
    simpa using hc
  have hsubf : (List.range cap).toFinset ⊆ used.toFinset := by
    intro s hs
    rw [List.mem_toFinset] at hs ⊢
    exact hsub s ((List.mem_toFinset).mpr hs |> List.mem_toFinset.mp)
  have h1 : cap ≤ used.toFinset.card := by
    have hcard := Finset.card_le_card hsubf
    rwa [List.toFinset_card_of_nodup (List.nodup_range cap),
      List.length_range] at hcard
  have h2 := List.toFinset_card_le used
  omega

theorem getLayer_length_le_totalSize (m : OccMap) (L : Nat) :
    (OccMap.getLayer m L).length ≤ Legacy.totalSize m := by
  induction m with
  | nil => simp [OccMap.getLayer_nil, Legacy.totalSize]
  | cons p m ih =>
    rw [OccMap.getLayer_cons]
    unfold Legacy.totalSize at ih ⊢
    simp only [List.map_cons, List.sum_cons]
    split
    · omega
    · omega

namespace Legacy

theorem claimLoop_succeeds (fuel : Nat) :
    ∀ (m : OccMap) (li L : Nat), li ≤ L → L < li + fuel →
      (∃ s, s < getLayerCapacity L ∧ (OccMap.getLayer m L).contains s = false) →
      ∃ m' l s, claimLoop m li fuel = some (m', l, s) ∧
        (OccMap.getLayer m l).contains s = false ∧ s < getLayerCapacity l := by
  induction fuel with
  | zero =>
    intro m li L h1 h2 _
    omega
  | succ fuel ih =>
    rintro m li L h1 h2 ⟨s0, hs0cap, hs0free⟩
    simp only [claimLoop]
    rcases hf : Api.findFreeSlot ((m.ensureLayer li).getLayer li) 0
        (getLayerCapacity li) with _ | s
    · have hLli : L ≠ li := by
        intro he
        have hcov := Api.findFreeSlot_none _ _ _ hf s0 (Nat.zero_le _)
          (by rw [he] at hs0cap; omega)
        rw [OccMap.getLayer_ensureLayer, ← he] at hcov
        rw [hcov] at hs0free
        cases hs0free
      obtain ⟨m', l, s, hl1, hl2, hl3⟩ := ih (m.ensureLayer li) (li + 1) L
        (by omega) (by omega)
        ⟨s0, hs0cap, by rw [OccMap.getLayer_ensureLayer]; exact hs0free⟩
      rw [OccMap.getLayer_ensureLayer] at hl2
      exact ⟨m', l, s, hl1, hl2, hl3⟩
    · obtain ⟨hfree, _, hub, _⟩ := Api.findFreeSlot_some _ _ _ _ hf
      rw [OccMap.getLayer_ensureLayer] at hfree
      exact ⟨_, li, s, rfl, hfree, by omega⟩

end Legacy

/-! ## The comparator is a total preorder -/

theorem charListLe_total (a b : List Char) :
    charListLe a b = true ∨ charListLe b a = true := by
  induction a generalizing b with
  | nil => left; rfl
  | cons x xs ih =>
    cases b with
    | nil => right; rfl
    | cons y ys =>
      unfold charListLe
      rcases Nat.lt_trichotomy x.toNat y.toNat with h | h | h
      · left; simp [h]
      · have h1 : ¬ x.toNat < y.toNat := by omega
        have h2 : ¬ y.toNat < x.toNat := by omega
        rcases ih ys with hc | hc
        · left; simp [h1, h2, hc]
        · right; simp [h1, h2, hc]
      · right; simp [h]

theorem charListLe_refl (a : List Char) : charListLe a a = true := by
  rcases charListLe_total a a with h | h <;> exact h

theorem charListLe_trans (a b c : List Char) (h1 : charListLe a b = true)
    (h2 : charListLe b c = true) : charListLe a c = true := by
  induction a generalizing b c with
  | nil => rfl
  | cons x xs ih =>
    cases b with
    | nil => simp [charListLe] at h1
    | cons y ys =>
      cases c with
      | nil => simp [charListLe] at h2
      | cons z zs =>
        unfold charListLe at h1 h2 ⊢
        by_cases hxy : x.toNat < y.toNat
        · have hyz : y.toNat ≤ z.toNat := by
            by_cases h : y.toNat < z.toNat
            · omega
            · by_cases h2' : z.toNat < y.toNat
              · simp [h, h2'] at h2
              · omega
          simp [show x.toNat < z.toNat by omega]
        · by_cases hyx : y.toNat < x.toNat
          · simp [hxy, hyx] at h1
          · have hxyeq : x.toNat = y.toNat := by omega
            simp only [hxy, if_false, hyx] at h1
            by_cases hyz : y.toNat < z.toNat
            · simp [show x.toNat < z.toNat by omega]
            · by_cases hzy : z.toNat < y.toNat
              · simp [hyz, hzy] at h2
              · simp only [hyz, if_false, hzy] at h2
                have hxz1 : ¬ x.toNat < z.toNat := by omega
                have hxz2 : ¬ z.toNat < x.toNat := by omega
                simp [hxz1, hxz2, ih ys zs h1 h2]

theorem localeLe_refl (a : String) : localeLe a a = true :=
  charListLe_refl a.data

theorem localeLe_total (a b : String) :
    localeLe a b = true ∨ localeLe b a = true :=
  charListLe_total a.data b.data

theorem localeLe_trans (a b c : String) (h1 : localeLe a b = true)
    (h2 : localeLe b c = true) : localeLe a c = true :=
  charListLe_trans a.data b.data c.data h1 h2

/-! ## Lemmas about coordinate normalization -/

namespace Api

theorem normalizeRow_eq_self_of_valid (w : Row) (l s : Nat)
    (hl : w.layer_index = some l) (hs : w.slot_index = some s)
    (hv : validCoord l s) : normalizeRow w = w := by
  obtain ⟨h1, h2, h3⟩ := hv
  unfold normalizeRow
  rw [hl, hs]
  have hng : ¬ l > MAX_LAYER_INDEX := by omega
  simp only [hng, if_false]
  have : (getLayerCapacity l == 0 || decide (s ≥ getLayerCapacity l)) = false := by
    simp only [Bool.or_eq_false_iff, beq_eq_false_iff_ne, decide_eq_false_iff_not]
    constructor
    · omega
    · omega
  simp [this]

theorem normalizeRow_eq_reset_of_invalid (w : Row) (l s : Nat)
    (hl : w.layer_index = some l) (hs : w.slot_index = some s)
    (hv : ¬ validCoord l s) : normalizeRow w = resetCoords w := by
  unfold normalizeRow resetCoords
  rw [hl, hs]
  unfold validCoord at hv
  by_cases hng : l > MAX_LAYER_INDEX
  · simp [hng]
  · simp only [hng, if_false]
    have : (getLayerCapacity l == 0 || decide (s ≥ getLayerCapacity l)) = true := by
      simp only [Bool.or_eq_true, beq_iff_eq, decide_eq_true_eq]
      omega
    simp [this]

theorem normalizeRow_of_unassigned (w : Row)
    (h : w.layer_index = none ∨ w.slot_index = none) : normalizeRow w = w := by
  unfold normalizeRow
  rcases hl : w.layer_index with _ | l
  · simp
  · rcases hs : w.slot_index with _ | s
    · simp
    · rcases h with h | h
      · rw [hl] at h; cases h
      · rw [hs] at h; cases h

theorem normalizeRow_cases (w : Row) :
    normalizeRow w = w ∨ normalizeRow w = resetCoords w := by
  rcases hl : w.layer_index with _ | l
  · left; exact normalizeRow_of_unassigned w (Or.inl hl)
  · rcases hs : w.slot_index with _ | s
    · left; exact normalizeRow_of_unassigned w (Or.inr hs)
    · by_cases hv : validCoord l s
      · left; exact normalizeRow_eq_self_of_valid w l s hl hs hv
      · right; exact normalizeRow_eq_reset_of_invalid w l s hl hs hv

theorem normalizeRow_coords_valid (w : Row) (l s : Nat)
    (hl : (normalizeRow w).layer_index = some l)
    (hs : (normalizeRow w).slot_index = some s) :
    validCoord l s ∧ normalizeRow w = w := by
  rcases hwl : w.layer_index with _ | l0
  · rw [normalizeRow_of_unassigned w (Or.inl hwl)] at hl
    rw [hwl] at hl; cases hl
  · rcases hws : w.slot_index with _ | s0
    · rw [normalizeRow_of_unassigned w (Or.inr hws)] at hs
      rw [hws] at hs; cases hs
    · by_cases hv : validCoord l0 s0
      · have heq := normalizeRow_eq_self_of_valid w l0 s0 hwl hws hv
        rw [heq] at hl hs
        rw [hwl] at hl
        rw [hws] at hs
        injection hl with hl
        injection hs with hs
        subst hl
        subst hs
        exact ⟨hv, heq⟩
      · have heq := normalizeRow_eq_reset_of_invalid w l0 s0 hwl hws hv
        rw [heq] at hl
        cases hl

theorem normalizeRow_idem (w : Row) :
    normalizeRow (normalizeRow w) = normalizeRow w := by
  rcases hl : (normalizeRow w).layer_index with _ | l
  · exact normalizeRow_of_unassigned _ (Or.inl hl)
  · rcases hs : (normalizeRow w).slot_index with _ | s
    · exact normalizeRow_of_unassigned _ (Or.inr hs)
    · obtain ⟨hv, _⟩ := normalizeRow_coords_valid w l s hl hs
      exact normalizeRow_eq_self_of_valid _ l s hl hs hv

end Api

namespace Api

theorem memSlot_buildOccupiedMap_aux (entries : List Row) (m : OccMap) (L S : Nat) :
    ((entries.foldl
      (fun occupied entry =>
        match entry.layer_index, entry.slot_index with
        | some l, some s =>
          if l > MAX_LAYER_INDEX then occupied
          else
            let capacity := getLayerCapacity l
            if capacity == 0 || decide (s ≥ capacity) then occupied
            else (occupied.ensureLayer l).addSlot l s
        | _, _ => occupied)
      m).memSlot L S = true) ↔
      (m.memSlot L S = true ∨ (validCoord L S ∧
        ∃ w ∈ entries, w.layer_index = some L ∧ w.slot_index = some S)) := by
  induction entries generalizing m with
  | nil => simp
  | cons w ws ih =>
    rw [List.foldl_cons, ih]
    rcases hwl : w.layer_index with _ | l
    · simp only [hwl]
      constructor
      · rintro (h | ⟨hv, w2, hw2, hc⟩)
        · exact Or.inl h
        · exact Or.inr ⟨hv, w2, List.mem_cons_of_mem _ hw2, hc⟩
      · rintro (h | ⟨hv, w2, hw2, hc1, hc2⟩)
        · exact Or.inl h
        · rcases List.mem_cons.mp hw2 with he | he
          · rw [he, hwl] at hc1; cases hc1
          · exact Or.inr ⟨hv, w2, he, hc1, hc2⟩
    · rcases hws : w.slot_index with _ | s
      · simp only [hwl, hws]
        constructor
        · rintro (h | ⟨hv, w2, hw2, hc⟩)
          · exact Or.inl h
          · exact Or.inr ⟨hv, w2, List.mem_cons_of_mem _ hw2, hc⟩
        · rintro (h | ⟨hv, w2, hw2, hc1, hc2⟩)
          · exact Or.inl h
          · rcases List.mem_cons.mp hw2 with he | he
            · rw [he, hws] at hc2; cases hc2
            · exact Or.inr ⟨hv, w2, he, hc1, hc2⟩
      · simp only [hwl, hws]
        by_cases hgt : l > MAX_LAYER_INDEX
        · simp only [hgt, if_pos, if_true]
          have hwnv : ∀ hv : validCoord L S,
              ¬ (w.layer_index = some L ∧ w.slot_index = some S) := by
            intro hv ⟨hc1, _⟩
            rw [hwl] at hc1
            injection hc1 with hc1
            subst hc1
            exact absurd hv.1 (by omega)
          constructor
          · rintro (h | ⟨hv, w2, hw2, hc⟩)
            · exact Or.inl h
            · exact Or.inr ⟨hv, w2, List.mem_cons_of_mem _ hw2, hc⟩
          · rintro (h | ⟨hv, w2, hw2, hc1, hc2⟩)
            · exact Or.inl h
            · rcases List.mem_cons.mp hw2 with he | he
              · subst he
                exact absurd ⟨hc1, hc2⟩ (hwnv hv)
              · exact Or.inr ⟨hv, w2, he, hc1, hc2⟩
        · by_cases hcap : (getLayerCapacity l == 0 || decide (s ≥ getLayerCapacity l)) = true
          · simp only [hgt, if_false, hcap, if_true]
            have hwnv : ∀ hv : validCoord L S,
                ¬ (w.layer_index = some L ∧ w.slot_index = some S) := by
              intro hv ⟨hc1, hc2⟩
              rw [hwl] at hc1
              rw [hws] at hc2
              injection hc1 with hc1
              injection hc2 with hc2
              subst hc1
              subst hc2
              simp only [Bool.or_eq_true, beq_iff_eq, decide_eq_true_eq] at hcap
              obtain ⟨_, hv2, hv3⟩ := hv
              omega
            constructor
            · rintro (h | ⟨hv, w2, hw2, hc⟩)
              · exact Or.inl h
              · exact Or.inr ⟨hv, w2, List.mem_cons_of_mem _ hw2, hc⟩
            · rintro (h | ⟨hv, w2, hw2, hc1, hc2⟩)
              · exact Or.inl h
              · rcases List.mem_cons.mp hw2 with he | he
                · subst he
                  exact absurd ⟨hc1, hc2⟩ (hwnv hv)
                · exact Or.inr ⟨hv, w2, he, hc1, hc2⟩
          · simp only [hgt, if_false, hcap, Bool.false_eq_true]
            rw [OccMap.memSlot_addSlot, OccMap.memSlot_ensureLayer]
            have hlsv : validCoord l s := by
              simp only [Bool.or_eq_true, beq_iff_eq, decide_eq_true_eq] at hcap
              push_neg at hcap
              exact ⟨by omega, by omega, by omega⟩
            constructor
            · intro h
              rcases h with h | ⟨hv, w2, hw2, hc⟩
              · rw [Bool.or_eq_true] at h
                rcases h with h | h
                · exact Or.inl h
                · simp only [Bool.and_eq_true, decide_eq_true_eq] at h
                  obtain ⟨hL, hS⟩ := h
                  subst hL
                  subst hS
                  exact Or.inr ⟨hlsv, w, List.mem_cons_self _ _, hwl, hws⟩
              · exact Or.inr ⟨hv, w2, List.mem_cons_of_mem _ hw2, hc⟩
            · rintro (h | ⟨hv, w2, hw2, hc1, hc2⟩)
              · rw [h]; exact Or.inl (by simp)
              · rcases List.mem_cons.mp hw2 with he | he
                · subst he
                  rw [hwl] at hc1
                  rw [hws] at hc2
                  injection hc1 with hc1
                  injection hc2 with hc2
                  subst hc1
                  subst hc2
                  left
                  simp
                · exact Or.inr ⟨hv, w2, he, hc1, hc2⟩

theorem memSlot_buildOccupiedMap (entries : List Row) (L S : Nat) :
    ((buildOccupiedMap entries).memSlot L S = true) ↔
      (validCoord L S ∧
        ∃ w ∈ entries, w.layer_index = some L ∧ w.slot_index = some S) := by
  unfold buildOccupiedMap
  rw [memSlot_buildOccupiedMap_aux]
  simp [OccMap.memSlot, OccMap.getLayer]

end Api

theorem list_set_self_of_getElem? {α : Type} (l : List α) (i : Nat) (a : α)
    (h : l[i]? = some a) : l.set i a = l := by
  apply List.ext_getElem?
  intro k
  rw [List.getElem?_set]
  by_cases hk : i = k
  · subst hk
    simp [h, (List.getElem?_eq_some.mp h).1]
  · simp [hk]

namespace Api

theorem reconcileRows_congr (data data' : List Row)
    (h : data.map normalizeRow = data'.map normalizeRow) :
    reconcileRows data = reconcileRows data' := by
  unfold reconcileRows
  rw [h]

end Api

/-! ## Lemmas about the claim-assignment fold -/

namespace Api

theorem assignClaims_indices (m : OccMap) (lst : List (Nat × Row)) :
    ((assignClaims m lst).2).map (fun p => p.1) = lst.map (fun p => p.1) := by
  induction lst generalizing m with
  | nil => rfl
  | cons p rest ih =>
    rcases p with ⟨i, w⟩
    rcases hc : claimNextSlot m with ⟨m1, o⟩
    cases o with
    | some c => simp only [assignClaims, hc, List.map_cons, ih m1]
    | none => simp only [assignClaims, hc, List.map_cons, ih m1]

theorem assignClaims_length (m : OccMap) (lst : List (Nat × Row)) :
    (assignClaims m lst).2.length = lst.length := by
  have h := congrArg List.length (assignClaims_indices m lst)
  simpa using h

theorem assignClaims_mem_some_fresh (m : OccMap) (lst : List (Nat × Row))
    (i : Nat) (c : Nat × Nat) (h : (i, some c) ∈ (assignClaims m lst).2) :
    m.memSlot c.1 c.2 = false ∧ c.2 < getLayerCapacity c.1 ∧
      c.1 ≤ MAX_LAYER_INDEX := by
  induction lst generalizing m with
  | nil => simp [assignClaims] at h
  | cons p rest ih =>
    rcases p with ⟨j, w⟩
    rcases hc : claimNextSlot m with ⟨m1, o⟩
    cases o with
    | some c0 =>
      rcases c0 with ⟨l, s⟩
      simp only [assignClaims, hc] at h
      rcases List.mem_cons.mp h with he | he
      · rw [Prod.mk.injEq] at he
        obtain ⟨he1, he2⟩ := he
        injection he2 with he2
        subst he2
        obtain ⟨hle, hcap, hfresh, _, _⟩ := claimNextSlot_some m m1 l s hc
        exact ⟨hfresh, hcap, hle⟩
      · obtain ⟨h1, h2, h3⟩ := ih m1 he
        have hme := claimNextSlot_memSlot m m1 _ hc c.1 c.2
        rw [hme] at h1
        exact ⟨(Bool.or_eq_false_iff.mp h1).1, h2, h3⟩
    | none =>
      simp only [assignClaims, hc] at h
      rcases List.mem_cons.mp h with he | he
      · rw [Prod.mk.injEq] at he
        cases he.2
      · obtain ⟨h1, h2, h3⟩ := ih m1 he
        have hme := claimNextSlot_memSlot m m1 none hc c.1 c.2
        rw [hme] at h1
        exact ⟨(Bool.or_eq_false_iff.mp h1).1, h2, h3⟩

theorem assignClaims_final_memSlot (m : OccMap) (lst : List (Nat × Row))
    (L S : Nat) :
    (((assignClaims m lst).1).memSlot L S = true) ↔
      (m.memSlot L S = true ∨ ∃ i, (i, some (L, S)) ∈ (assignClaims m lst).2) := by
  induction lst generalizing m with
  | nil => simp [assignClaims]
  | cons p rest ih =>
    rcases p with ⟨j, w⟩
    rcases hc : claimNextSlot m with ⟨m1, o⟩
    cases o with
    | some c =>
      rcases c with ⟨l, s⟩
      simp only [assignClaims, hc]
      rw [ih m1]
      have hme := claimNextSlot_memSlot m m1 _ hc L S
      obtain ⟨hle, hcap, hfreshm, hm1, hmin⟩ := claimNextSlot_some m m1 l s hc
      constructor
      · rintro (h | ⟨i, hi⟩)
        · rw [hme, Bool.or_eq_true] at h
          rcases h with h | h
          · exact Or.inl h
          · rw [decide_eq_true_eq] at h
            injection h with h
            refine Or.inr ⟨j, ?_⟩
            rw [h]
            exact List.mem_cons_self _ _
        · exact Or.inr ⟨i, List.mem_cons_of_mem _ hi⟩
      · rintro (h | ⟨i, hi⟩)
        · left
          rw [hme, h]
          simp
        · rcases List.mem_cons.mp hi with he | he
          · rw [Prod.mk.injEq] at he
            obtain ⟨he1, he2⟩ := he
            injection he2 with he2
            rw [Prod.mk.injEq] at he2
            obtain ⟨hl2, hs2⟩ := he2
            left
            rw [hl2, hs2]
            exact hm1
          · exact Or.inr ⟨i, he⟩
    | none =>
      simp only [assignClaims, hc]
      rw [ih m1]
      have hme := claimNextSlot_memSlot m m1 none hc L S
      have hd : (decide ((none : Option (Nat × Nat)) = some (L, S))) = false := by simp
      rw [hme, hd, Bool.or_false]
      constructor
      · rintro (h | ⟨i, hi⟩)
        · exact Or.inl h
        · exact Or.inr ⟨i, List.mem_cons_of_mem _ hi⟩
      · rintro (h | ⟨i, hi⟩)
        · exact Or.inl h
        · rcases List.mem_cons.mp hi with he | he
          · rw [Prod.mk.injEq] at he
            cases he.2
          · exact Or.inr ⟨i, he⟩

theorem assignClaims_mem_none_full (m : OccMap) (lst : List (Nat × Row))
    (i : Nat) (h : (i, none) ∈ (assignClaims m lst).2) :
    ∀ l, l ≤ MAX_LAYER_INDEX → ∀ s, s < getLayerCapacity l →
      ((assignClaims m lst).1).memSlot l s = true := by
  induction lst generalizing m with
  | nil => simp [assignClaims] at h
  | cons p rest ih =>
    rcases p with ⟨j, w⟩
    rcases hc : claimNextSlot m with ⟨m1, o⟩
    cases o with
    | some c =>
      simp only [assignClaims, hc] at h ⊢
      rcases List.mem_cons.mp h with he | he
      · rw [Prod.mk.injEq] at he
        cases he.2
      · exact ih m1 he
    | none =>
      simp only [assignClaims, hc] at h ⊢
      rcases List.mem_cons.mp h with he | he
      · intro l hl s hs
        have hfull := claimNextSlot_none m m1 hc l hl s hs
        have hm1full : m1.memSlot l s = true := by
          rw [claimNextSlot_memSlot m m1 none hc l s, hfull]
          simp
        exact (assignClaims_final_memSlot m1 rest l s).mpr (Or.inl hm1full)
      · exact ih m1 he

theorem assignClaims_full_none (m : OccMap) (lst : List (Nat × Row))
    (h : ∀ l, l ≤ MAX_LAYER_INDEX → ∀ s, s < getLayerCapacity l →
      m.memSlot l s = true) :
    (assignClaims m lst).2 = lst.map (fun p => (p.1, none)) := by
  induction lst generalizing m with
  | nil => rfl
  | cons p rest ih =>
    rcases p with ⟨j, w⟩
    rcases hc : claimNextSlot m with ⟨m1, o⟩
    have ho : o = none := by
      have hn := claimNextSlot_full_none m h
      rw [hc] at hn
      exact hn
    subst ho
    simp only [assignClaims, hc, List.map_cons]
    congr 1
    apply ih m1
    intro l hl s hs
    rw [claimNextSlot_memSlot m m1 none hc l s, h l hl s hs]
    simp

theorem assignClaims_increasing (m : OccMap) (lst : List (Nat × Row)) :
    ((assignClaims m lst).2).Pairwise (fun p q =>
      ∀ l1 s1 l2 s2, p.2 = some (l1, s1) → q.2 = some (l2, s2) →
        (l1 < l2 ∨ (l1 = l2 ∧ s1 < s2))) := by
  induction lst generalizing m with
  | nil => simp [assignClaims]
  | cons p rest ih =>
    rcases p with ⟨j, w⟩
    rcases hc : claimNextSlot m with ⟨m1, o⟩
    cases o with
    | none =>
      simp only [assignClaims, hc]
      refine List.Pairwise.cons ?_ (ih m1)
      rintro q hq l1 s1 l2 s2 h1 h2
      cases h1
    | some c =>
      rcases c with ⟨l, s⟩
      simp only [assignClaims, hc]
      refine List.Pairwise.cons ?_ (ih m1)
      rintro ⟨i, o2⟩ hmem l1 s1 l2 s2 h1 h2
      simp only at h1 h2
      injection h1 with h1
      rw [Prod.mk.injEq] at h1
      obtain ⟨hl1, hs1⟩ := h1
      subst hl1
      subst hs1
      subst h2
      obtain ⟨hfresh2, hcap2, _⟩ :=
        assignClaims_mem_some_fresh m1 rest i (l2, s2) hmem
      obtain ⟨hle, hcap, hfreshm, hm1, hmin⟩ := claimNextSlot_some m m1 l s hc
      simp only at hfresh2 hcap2
      rcases Nat.lt_trichotomy l2 l with h | h | h
      · have hocc := hmin l2 s2 (Or.inl h) hcap2
        have hm2 : m1.memSlot l2 s2 = true := by
          rw [claimNextSlot_memSlot m m1 _ hc l2 s2, hocc]
          simp
        rw [hm2] at hfresh2
        cases hfresh2
      · rcases Nat.lt_trichotomy s2 s with h2 | h2 | h2
        · have hocc := hmin l2 s2 (Or.inr ⟨h, h2⟩) hcap2
          have hm2 : m1.memSlot l2 s2 = true := by
            rw [claimNextSlot_memSlot m m1 _ hc l2 s2, hocc]
            simp
          rw [hm2] at hfresh2
          cases hfresh2
        · rw [h, h2] at hfresh2
          rw [hm1] at hfresh2
          cases hfresh2
        · exact Or.inr ⟨h.symm, h2⟩
      · exact Or.inl h

end Api

/-! ## Lemmas about claim lookup and write-back into the row list -/

namespace Api

theorem lookupClaim_eq_some_iff (asg : List (Nat × Option (Nat × Nat))) (i : Nat)
    (hnd : (asg.map (fun p => p.1)).Nodup) (o : Option (Nat × Nat)) :
    lookupClaim asg i = some o ↔ (i, o) ∈ asg := by
  induction asg with
  | nil => simp [lookupClaim]
  | cons q rest ih =>
    rcases q with ⟨j, o0⟩
    simp only [List.map_cons, List.nodup_cons] at hnd
    obtain ⟨hj, hnd2⟩ := hnd
    unfold lookupClaim
    rw [List.find?_cons]
    by_cases hji : j = i
    · subst hji
      have hb : (((j, o0) : Nat × Option (Nat × Nat)).1 == j) = true := by simp
      simp only [hb, Option.map_some]
      constructor
      · intro h
        injection h with h
        rw [← h]
        exact List.mem_cons_self _ _
      · intro h
        rcases List.mem_cons.mp h with he | he
        · rw [Prod.mk.injEq] at he
          rw [he.2]
          rfl
        · exfalso
          apply hj
          exact List.mem_map.mpr ⟨(j, o), he, rfl⟩
    · have hb : (((j, o0) : Nat × Option (Nat × Nat)).1 == i) = false := by
        simpa using hji
      simp only [hb]
      rw [show ((List.find? (fun p => p.1 == i) rest).map (fun p => p.2)) =
        lookupClaim rest i from rfl]
      rw [ih hnd2]
      constructor
      · exact fun h => List.mem_cons_of_mem _ h
      · intro h
        rcases List.mem_cons.mp h with he | he
        · rw [Prod.mk.injEq] at he
          exact absurd he.1.symm hji
        · exact he

theorem lookupClaim_eq_none_iff (asg : List (Nat × Option (Nat × Nat))) (i : Nat) :
    lookupClaim asg i = none ↔ i ∉ asg.map (fun p => p.1) := by
  unfold lookupClaim
  rw [Option.map_eq_none', List.find?_eq_none]
  constructor
  · intro h hmem
    rcases List.mem_map.mp hmem with ⟨p, hp, hpe⟩
    have := h p hp
    rw [hpe] at this
    simp at this
  · intro h p hp
    intro hb
    apply h
    refine List.mem_map.mpr ⟨p, hp, ?_⟩
    simpa using hb

theorem length_applyAssignments (rows : List Row)
    (asg : List (Nat × Option (Nat × Nat))) :
    (applyAssignments rows asg).length = rows.length := by
  unfold applyAssignments
  rw [List.length_map, List.enum_length]

theorem getElem_applyAssignments (rows : List Row)
    (asg : List (Nat × Option (Nat × Nat))) (i : Nat) (h : i < rows.length)
    (h2 : i < (applyAssignments rows asg).length) :
    (applyAssignments rows asg)[i] =
      (match lookupClaim asg i with
       | some (some (l, s)) =>
         { rows[i] with layer_index := some l, slot_index := some s }
       | some none =>
         { rows[i] with layer_index := none, slot_index := none }
       | none => rows[i]) := by
  unfold applyAssignments
  rw [List.getElem_map, List.getElem_enum]

theorem mem_unassignedOf_iff (rows : List Row) (i : Nat) (w : Row) :
    (i, w) ∈ unassignedOf rows ↔ rows[i]? = some w ∧ isPositioned w = false := by
  unfold unassignedOf
  rw [List.mem_filter, List.mem_enum_iff_getElem?]
  simp

theorem mem_sortedUnassignedOf_iff (rows : List Row) (i : Nat) (w : Row) :
    (i, w) ∈ sortedUnassignedOf rows ↔ (i, w) ∈ unassignedOf rows := by
  unfold sortedUnassignedOf
  exact (List.perm_insertionSort _ _).mem_iff

theorem nodup_indices_unassignedOf (rows : List Row) :
    ((unassignedOf rows).map (fun p => p.1)).Nodup := by
  unfold unassignedOf
  have h1 : (rows.enum.filter (fun p => !isPositioned p.2)).Sublist rows.enum :=
    List.filter_sublist _
  have h2 := h1.map (fun p : Nat × Row => p.1)
  refine List.Nodup.sublist h2 ?_
  have h3 : (rows.enum.map (fun p : Nat × Row => p.1)) = List.range rows.length :=
    List.enum_map_fst rows
  rw [h3]
  exact List.nodup_range _

theorem nodup_indices_sortedUnassignedOf (rows : List Row) :
    ((sortedUnassignedOf rows).map (fun p => p.1)).Nodup := by
  unfold sortedUnassignedOf
  have hperm := (List.perm_insertionSort
    (fun a b => localeLe (createdKey a.2) (createdKey b.2) = true)
    (unassignedOf rows)).map (fun p : Nat × Row => p.1)
  exact hperm.nodup_iff.mpr (nodup_indices_unassignedOf rows)

theorem nodup_indices_asgOf (rows : List Row) :
    ((asgOf rows).map (fun p => p.1)).Nodup := by
  unfold asgOf
  rw [assignClaims_indices]
  exact nodup_indices_sortedUnassignedOf rows

theorem mem_indices_asgOf_iff (rows : List Row) (i : Nat) :
    i ∈ (asgOf rows).map (fun p => p.1) ↔ ∃ w, (i, w) ∈ unassignedOf rows := by
  unfold asgOf
  rw [assignClaims_indices]
  constructor
  · intro h
    rcases List.mem_map.mp h with ⟨p, hp, hpe⟩
    rcases p with ⟨i2, w⟩
    simp only at hpe
    subst hpe
    exact ⟨w, (mem_sortedUnassignedOf_iff rows i2 w).mp hp⟩
  · rintro ⟨w, hw⟩
    exact List.mem_map.mpr ⟨(i, w),
      (mem_sortedUnassignedOf_iff rows i w).mpr hw, rfl⟩

theorem mem_asgOf_of_unassigned (rows : List Row) (i : Nat) (w : Row)
    (h : (i, w) ∈ unassignedOf rows) :
    ∃ o, (i, o) ∈ asgOf rows ∧ lookupClaim (asgOf rows) i = some o := by
  have hidx : i ∈ (asgOf rows).map (fun p => p.1) :=
    (mem_indices_asgOf_iff rows i).mpr ⟨w, h⟩
  rcases List.mem_map.mp hidx with ⟨p, hp, hpe⟩
  rcases p with ⟨i2, o⟩
  simp only at hpe
  subst hpe
  exact ⟨o, hp, (lookupClaim_eq_some_iff _ i2 (nodup_indices_asgOf rows) o).mpr hp⟩

theorem reconcileRows_fst (data : List Row) :
    (reconcileRows data).1 =
      applyAssignments (data.map normalizeRow) (asgOf (data.map normalizeRow)) := rfl

end Api

namespace Api

theorem length_reconcileRows (data : List Row) :
    (reconcileRows data).1.length = data.length := by
  rw [reconcileRows_fst, length_applyAssignments, List.length_map]

theorem reconcile_row_spec (rows : List Row) (i : Nat) (h : i < rows.length)
    (h2 : i < (applyAssignments rows (asgOf rows)).length) :
    (isPositioned rows[i] = true ∧
      (applyAssignments rows (asgOf rows))[i] = rows[i]) ∨
    (isPositioned rows[i] = false ∧
      ((lookupClaim (asgOf rows) i = some none ∧
         (i, (none : Option (Nat × Nat))) ∈ asgOf rows ∧
         (applyAssignments rows (asgOf rows))[i] = resetCoords rows[i]) ∨
       (∃ l s, lookupClaim (asgOf rows) i = some (some (l, s)) ∧
         (i, some (l, s)) ∈ asgOf rows ∧ validCoord l s ∧
         (applyAssignments rows (asgOf rows))[i] =
           { rows[i] with layer_index := some l, slot_index := some s }))) := by
  by_cases hp : isPositioned rows[i] = true
  · left
    refine ⟨hp, ?_⟩
    have hnone : lookupClaim (asgOf rows) i = none := by
      rw [lookupClaim_eq_none_iff]
      intro hmem
      rcases (mem_indices_asgOf_iff rows i).mp hmem with ⟨w, hw⟩
      obtain ⟨hge, hpos⟩ := (mem_unassignedOf_iff rows i w).mp hw
      rw [List.getElem?_eq_getElem h] at hge
      injection hge with hge
      rw [← hge] at hpos
      rw [hp] at hpos
      cases hpos
    rw [getElem_applyAssignments rows _ i h h2, hnone]
  · right
    rw [Bool.not_eq_true] at hp
    refine ⟨hp, ?_⟩
    have hun : (i, rows[i]) ∈ unassignedOf rows := by
      rw [mem_unassignedOf_iff]
      exact ⟨List.getElem?_eq_getElem h, hp⟩
    obtain ⟨o, ho, hlook⟩ := mem_asgOf_of_unassigned rows i _ hun
    cases o with
    | none =>
      left
      refine ⟨hlook, ho, ?_⟩
      rw [getElem_applyAssignments rows _ i h h2, hlook]
      rfl
    | some c =>
      rcases c with ⟨l, s⟩
      right
      refine ⟨l, s, hlook, ho, ?_, ?_⟩
      · unfold asgOf at ho
        have hfr := assignClaims_mem_some_fresh _ _ i (l, s) ho
        simp only at hfr
        exact ⟨hfr.2.2, by omega, hfr.2.1⟩
      · rw [getElem_applyAssignments rows _ i h h2, hlook]

theorem sortedUnassignedOf_pairwise (rows : List Row) :
    (sortedUnassignedOf rows).Pairwise
      (fun a b => localeLe (createdKey a.2) (createdKey b.2) = true) := by
  unfold sortedUnassignedOf
  haveI htot : IsTotal (Nat × Row)
      (fun a b => localeLe (createdKey a.2) (createdKey b.2) = true) :=
    ⟨fun a b => localeLe_total _ _⟩
  haveI htr : IsTrans (Nat × Row)
      (fun a b => localeLe (createdKey a.2) (createdKey b.2) = true) :=
    ⟨fun a b c => localeLe_trans _ _ _⟩
  exact List.sorted_insertionSort _ _

theorem sortedUnassignedOf_getElem_snd (rows : List Row) (p : Nat)
    (hp : p < (sortedUnassignedOf rows).length) :
    rows[((sortedUnassignedOf rows)[p].1)]? = some ((sortedUnassignedOf rows)[p].2) := by
  have hm := List.getElem_mem hp
  rcases hq : (sortedUnassignedOf rows)[p] with ⟨q, w⟩
  rw [hq] at hm
  obtain ⟨hge, _⟩ := (mem_unassignedOf_iff rows q w).mp
    ((mem_sortedUnassignedOf_iff rows q w).mp hm)
  exact hge

theorem asgOf_claims_ordered (rows : List Row) (i j li si lj sj : Nat)
    (wi wj : Row) (hwi : rows[i]? = some wi) (hwj : rows[j]? = some wj)
    (hmi : (i, some (li, si)) ∈ asgOf rows)
    (hmj : (j, some (lj, sj)) ∈ asgOf rows)
    (hlt : localeLe (createdKey wj) (createdKey wi) = false) :
    li < lj ∨ (li = lj ∧ si < sj) := by
  obtain ⟨pi, hpi, hasg_pi⟩ := List.mem_iff_getElem.mp hmi
  obtain ⟨pj, hpj, hasg_pj⟩ := List.mem_iff_getElem.mp hmj
  have hidx : (asgOf rows).map (fun p => p.1) =
      (sortedUnassignedOf rows).map (fun p => p.1) := by
    unfold asgOf
    exact assignClaims_indices _ _
  have hlen : (asgOf rows).length = (sortedUnassignedOf rows).length := by
    have hc := congrArg List.length hidx
    simpa using hc
  have hfst : ∀ (p : Nat) (hp : p < (asgOf rows).length)
      (hp3 : p < (sortedUnassignedOf rows).length),
      (sortedUnassignedOf rows)[p].1 = (asgOf rows)[p].1 := by
    intro p hp2 hp3
    have h1 := congrArg (fun l => l[p]?) hidx
    simp only [List.getElem?_map] at h1
    rw [List.getElem?_eq_getElem hp2,
      List.getElem?_eq_getElem (show p < (sortedUnassignedOf rows).length by omega)] at h1
    simp only [Option.map_some] at h1
    injection h1 with h1
    exact h1.symm
  have hij_order : pi < pj := by
    rcases Nat.lt_trichotomy pi pj with h | h | h
    · exact h
    · exfalso
      subst h
      rw [hasg_pi] at hasg_pj
      rw [Prod.mk.injEq] at hasg_pj
      have hij : i = j := hasg_pj.1
      subst hij
      rw [hwi] at hwj
      injection hwj with hwj
      rw [hwj] at hlt
      rw [localeLe_refl] at hlt
      cases hlt
    · exfalso
      have hpair := sortedUnassignedOf_pairwise rows
      have hR := List.pairwise_iff_getElem.mp hpair pj pi
        (by omega) (by omega) h
      have hsj := sortedUnassignedOf_getElem_snd rows pj (by omega)
      have hsi := sortedUnassignedOf_getElem_snd rows pi (by omega)
      have hfstj := hfst pj hpj
      have hfsti := hfst pi hpi
      rw [hasg_pj] at hfstj
      rw [hasg_pi] at hfsti
      simp only at hfstj hfsti
      rw [hfstj] at hsj
      rw [hfsti] at hsi
      rw [hwj] at hsj
      injection hsj with hsj
      rw [hwi] at hsi
      injection hsi with hsi
      rw [← hsj, ← hsi] at hR
      rw [hR] at hlt
      cases hlt
  have hinc : (asgOf rows).Pairwise (fun p q => ∀ l1 s1 l2 s2,
      p.2 = some (l1, s1) → q.2 = some (l2, s2) →
        (l1 < l2 ∨ (l1 = l2 ∧ s1 < s2))) := by
    unfold asgOf
    exact assignClaims_increasing _ _
  have hR := List.pairwise_iff_getElem.mp hinc pi pj hpi hpj hij_order
  apply hR li si lj sj
  · rw [hasg_pi]
  · rw [hasg_pj]

end Api

/-! ## Lemmas about the write path -/

namespace Api

theorem postAfterUpload_blobs (st : StoreState) (term username clientToken : String)
    (avatarPath : Option String) (lower : String → String)
    (fetchOk insertOk : Bool) (newId newCreatedAt : String) :
    (postAfterUpload st term username clientToken avatarPath lower
      fetchOk insertOk newId newCreatedAt).state.blobs = st.blobs := by
  simp only [postAfterUpload]
  split
  · rfl
  · split
    · rfl
    · split
      · rfl
      · split
        · rfl
        · split
          · rfl
          · rfl

theorem postAfterUpload_entries (st : StoreState)
    (term username clientToken : String) (avatarPath : Option String)
    (lower : String → String) (fetchOk insertOk : Bool)
    (newId newCreatedAt : String) :
    ((postAfterUpload st term username clientToken avatarPath lower
        fetchOk insertOk newId newCreatedAt).status ≠ 201 ∧
      (postAfterUpload st term username clientToken avatarPath lower
        fetchOk insertOk newId newCreatedAt).state.entries = st.entries) ∨
      ((postAfterUpload st term username clientToken avatarPath lower
          fetchOk insertOk newId newCreatedAt).status = 201 ∧
        ∃ l s, (postAfterUpload st term username clientToken avatarPath lower
            fetchOk insertOk newId newCreatedAt).state.entries =
          st.entries ++
            [{ id := some newId, term := some term, username := some username,
               avatar_url := avatarPath, client_token := some clientToken,
               created_at := some newCreatedAt,
               layer_index := some l, slot_index := some s }]) := by
  simp only [postAfterUpload]
  split
  · exact Or.inl ⟨by intro hcon; simp at hcon, rfl⟩
  · split
    · exact Or.inl ⟨by intro hcon; simp at hcon, rfl⟩
    · split
      · exact Or.inl ⟨by intro hcon; simp at hcon, rfl⟩
      · split
        · exact Or.inl ⟨by intro hcon; simp at hcon, rfl⟩
        · rename_i l s hsome
          split
          · exact Or.inl ⟨by intro hcon; simp at hcon, rfl⟩
          · exact Or.inr ⟨rfl, l, s, rfl⟩

theorem postAfterUpload_409_of_full (st : StoreState)
    (term username clientToken : String) (avatarPath : Option String)
    (lower : String → String) (insertOk : Bool) (newId newCreatedAt : String)
    (hdt : st.entries.any (fun entry =>
      lower (jsTrim (entry.term.getD "")) == lower term) = false)
    (hdc : st.entries.any (fun entry =>
      entry.client_token == some clientToken) = false)
    (hfull : (claimNextSlot (buildOccupiedMap st.entries)).2 = none) :
    postAfterUpload st term username clientToken avatarPath lower
      true insertOk newId newCreatedAt = { status := 409, state := st } := by
  simp only [postAfterUpload]
  rw [if_neg (by decide)]
  rw [if_neg (by rw [hdt]; simp)]
  rw [if_neg (by rw [hdc]; simp)]
  split
  · rfl
  · rename_i l s hsome
    rw [hfull] at hsome
    cases hsome

theorem POSTModel_entries (st : StoreState) (inp : PostInput)
    (lower : String → String) (timestamp : Nat)
    (uploadOk fetchOk insertOk : Bool) (newId newCreatedAt : String) :
    ((POSTModel st inp lower timestamp uploadOk fetchOk insertOk
        newId newCreatedAt).status ≠ 201 ∧
      (POSTModel st inp lower timestamp uploadOk fetchOk insertOk
        newId newCreatedAt).state.entries = st.entries) ∨
      ((POSTModel st inp lower timestamp uploadOk fetchOk insertOk
          newId newCreatedAt).status = 201 ∧
        ∃ w, (POSTModel st inp lower timestamp uploadOk fetchOk insertOk
            newId newCreatedAt).state.entries = st.entries ++ [w] ∧
          w.layer_index.isSome = true ∧ w.slot_index.isSome = true) := by
  have hgen : ∀ (st2 : StoreState) (t u c : String) (ap : Option String),
      st2.entries = st.entries →
      ((postAfterUpload st2 t u c ap lower fetchOk insertOk
          newId newCreatedAt).status ≠ 201 ∧
        (postAfterUpload st2 t u c ap lower fetchOk insertOk
          newId newCreatedAt).state.entries = st.entries) ∨
        ((postAfterUpload st2 t u c ap lower fetchOk insertOk
            newId newCreatedAt).status = 201 ∧
          ∃ w, (postAfterUpload st2 t u c ap lower fetchOk insertOk
              newId newCreatedAt).state.entries = st.entries ++ [w] ∧
            w.layer_index.isSome = true ∧ w.slot_index.isSome = true) := by
    intro st2 t u c ap he
    rcases postAfterUpload_entries st2 t u c ap lower fetchOk insertOk
      newId newCreatedAt with ⟨hne, h⟩ | ⟨hst, l, s, hent⟩
    · rw [he] at h
      exact Or.inl ⟨hne, h⟩
    · exact Or.inr ⟨hst,
        { id := some newId, term := some t, username := some u,
          avatar_url := ap, client_token := some c,
          created_at := some newCreatedAt,
          layer_index := some l, slot_index := some s },
        by rw [hent, he], rfl, rfl⟩
  simp only [POSTModel]
  split
  · exact Or.inl ⟨by intro hcon; simp at hcon, rfl⟩
  · split
    · split
      · split
        · exact Or.inl ⟨by intro hcon; simp at hcon, rfl⟩
        · split
          · exact Or.inl ⟨by intro hcon; simp at hcon, rfl⟩
          · exact hgen _ _ _ _ _ rfl
      · exact hgen _ _ _ _ _ rfl
    · exact hgen _ _ _ _ _ rfl

end Api

namespace Api

theorem reconcileRows_bothOrNeither (data : List Row) (w : Row)
    (hw : w ∈ (reconcileRows data).1) : bothOrNeither w = true := by
  rw [reconcileRows_fst] at hw
  obtain ⟨i, hlen, heq⟩ := List.mem_iff_getElem.mp hw
  have hleni : i < (data.map normalizeRow).length := by
    rw [length_applyAssignments] at hlen
    exact hlen
  rcases reconcile_row_spec (data.map normalizeRow) i hleni hlen with
    ⟨hpos, hout⟩ | ⟨_, hcase⟩
  · rw [hout] at heq
    rw [← heq]
    unfold bothOrNeither
    unfold isPositioned at hpos
    rw [hpos]
    rfl
  · rcases hcase with ⟨_, _, hout⟩ | ⟨l, s, _, _, _, hout⟩
    · rw [hout] at heq
      rw [← heq]
      rfl
    · rw [hout] at heq
      rw [← heq]
      rfl

end Api

/-! ## Lemmas towards idempotence of the reconciliation pass -/

theorem row_update_none_eq (w : Row) (hl : w.layer_index = none)
    (hs : w.slot_index = none) :
    ({ w with layer_index := none, slot_index := none } : Row) = w := by
  cases w
  simp only at hl hs
  rw [hl, hs]

namespace Api

theorem lookupClaim_mem (asg : List (Nat × Option (Nat × Nat))) (i : Nat)
    (o : Option (Nat × Nat)) (h : lookupClaim asg i = some o) : (i, o) ∈ asg := by
  unfold lookupClaim at h
  cases hf : asg.find? (fun p => p.1 == i) with
  | none =>
    rw [hf] at h
    cases h
  | some p =>
    rw [hf] at h
    injection h with h
    have hp := List.mem_of_find?_eq_some hf
    have hp1 := List.find?_some hf
    have hpe : p = (i, o) := by
      rcases p with ⟨p1, p2⟩
      simp only at hp1 h
      rw [Prod.mk.injEq]
      exact ⟨by simpa using hp1, h⟩
    rw [← hpe]
    exact hp

theorem applyAssignments_id (rows : List Row)
    (asg : List (Nat × Option (Nat × Nat)))
    (h : ∀ i o, (i, o) ∈ asg → o = none ∧ ∀ hi : i < rows.length,
      rows[i].layer_index = none ∧ rows[i].slot_index = none) :
    applyAssignments rows asg = rows := by
  apply List.ext_getElem (length_applyAssignments rows asg)
  intro i h1 h2
  rw [getElem_applyAssignments rows asg i h2]
  cases hlk : lookupClaim asg i with
  | none => rfl
  | some o =>
    have hmem := lookupClaim_mem asg i o hlk
    obtain ⟨ho, hco⟩ := h i o hmem
    subst ho
    obtain ⟨hl, hs⟩ := hco h2
    exact row_update_none_eq _ hl hs

theorem memSlot_build_applyAssignments_full (rows : List Row)
    (hfull : ∀ l, l ≤ MAX_LAYER_INDEX → ∀ s, s < getLayerCapacity l →
      ((assignClaims (buildOccupiedMap rows) (sortedUnassignedOf rows)).1).memSlot
        l s = true) :
    ∀ l, l ≤ MAX_LAYER_INDEX → ∀ s, s < getLayerCapacity l →
      (buildOccupiedMap (applyAssignments rows (asgOf rows))).memSlot l s = true := by
  intro l hl s hs
  have hm := hfull l hl s hs
  rw [assignClaims_final_memSlot] at hm
  rw [memSlot_buildOccupiedMap]
  refine ⟨⟨hl, by omega, hs⟩, ?_⟩
  rcases hm with hocc | ⟨j, hj⟩
  · rw [memSlot_buildOccupiedMap] at hocc
    obtain ⟨_, w, hw, hwl, hws⟩ := hocc
    obtain ⟨i, hi, heq⟩ := List.mem_iff_getElem.mp hw
    have hpos : isPositioned rows[i] = true := by
      unfold isPositioned
      rw [heq, hwl, hws]
      rfl
    rcases reconcile_row_spec rows i hi
      (by rw [length_applyAssignments]; exact hi) with ⟨_, hout⟩ | ⟨hnp, _⟩
    · refine ⟨rows[i], ?_, by rw [heq]; exact hwl, by rw [heq]; exact hws⟩
      rw [← hout]
      exact List.getElem_mem _
    · rw [hpos] at hnp
      cases hnp
  · have hj' : (j, some (l, s)) ∈ asgOf rows := hj
    have hlk : lookupClaim (asgOf rows) j = some (some (l, s)) :=
      (lookupClaim_eq_some_iff _ j (nodup_indices_asgOf rows) _).mpr hj'
    have hjidx : j ∈ (asgOf rows).map (fun p => p.1) :=
      List.mem_map.mpr ⟨_, hj', rfl⟩
    obtain ⟨w, hw⟩ := (mem_indices_asgOf_iff rows j).mp hjidx
    obtain ⟨hje, _⟩ := (mem_unassignedOf_iff rows j w).mp hw
    have hjlt : j < rows.length := (List.getElem?_eq_some.mp hje).1
    have hjlt2 : j < (applyAssignments rows (asgOf rows)).length := by
      rw [length_applyAssignments]
      exact hjlt
    refine ⟨(applyAssignments rows (asgOf rows))[j],
      List.getElem_mem _, ?_, ?_⟩
    · rw [getElem_applyAssignments rows _ j hjlt hjlt2, hlk]
    · rw [getElem_applyAssignments rows _ j hjlt hjlt2, hlk]

end Api

example : Api.claimNextSlot [] = ([(0, [0])], some (0, 0)) := by decide

example : Api.getLayerCapacity 3 = 24 ∧ Api.getLayerCapacity 4 = 24 ∧
    Api.getLayerCapacity 5 = 0 ∧ Api.getLayerCapacity 2 = 16 := by decide

example : ClientPage.getLayerCapacity 4 = 64 ∧ ClientPage.getLayerCapacity 5 = 128 := by decide

/-! ## Claim theorems -/

/-- C1: `claimNextSlot` returns a coordinate that is not present in the
occupancy map passed in, the first free one in ascending (layer, slot)
scan order, and inserts it into the map before returning; consequently
successive claims on the same (threaded) map are pairwise distinct. -/
theorem C1_claimNextSlot_fresh_ordered_distinct :
    (∀ (m m' : OccMap) (l s : Nat),
      Api.claimNextSlot m = (m', some (l, s)) →
        m.memSlot l s = false ∧ m'.memSlot l s = true ∧
          ∀ l2 s2, (l2 < l ∨ (l2 = l ∧ s2 < s)) → s2 < Api.getLayerCapacity l2 →
            m.memSlot l2 s2 = true) ∧
      ∀ (m : OccMap) (n : Nat), (Api.claimSeq m n).Pairwise (· ≠ ·) := by
  constructor
  · intro m m' l s h
    obtain ⟨_, _, h3, h4, h5⟩ := Api.claimNextSlot_some m m' l s h
    exact ⟨h3, h4, h5⟩
  · intro m n
    refine (Api.claimSeq_pairwise_scanLt n m).imp ?_
    intro a b hab he
    rw [he] at hab
    rcases hab with h | ⟨_, h2⟩
    · omega
    · omega

/-- Witness for C1 at the empty map. -/
theorem C1_claimNextSlot_fresh_ordered_distinct_witness :
    OccMap.memSlot [] 0 0 = false ∧ OccMap.memSlot [(0, [0])] 0 0 = true ∧
      (Api.claimSeq [] 3).Pairwise (· ≠ ·) := by
  obtain ⟨h1, h2⟩ := C1_claimNextSlot_fresh_ordered_distinct
  obtain ⟨ha, hb, _⟩ := h1 [] [(0, [0])] 0 0 (by decide)
  exact ⟨ha, hb, h2 [] 3⟩

/-- C2: a stored coordinate survives normalization exactly when it is in
range (`layerIndex ≤ max`, positive capacity, `slotIndex < capacity`);
an invalid one has both fields reset to `null`, after which the whole
reconciliation pass treats the row exactly like one whose coordinates
were `null` to begin with. -/
theorem C2_stored_coordinate_validity (w : Row) (l s : Nat)
    (hl : w.layer_index = some l) (hs : w.slot_index = some s) :
    (Api.normalizeRow w = w ↔
      (l ≤ Api.MAX_LAYER_INDEX ∧ 0 < Api.getLayerCapacity l ∧
        s < Api.getLayerCapacity l)) ∧
    (¬ (l ≤ Api.MAX_LAYER_INDEX ∧ 0 < Api.getLayerCapacity l ∧
        s < Api.getLayerCapacity l) →
      Api.normalizeRow w = Api.resetCoords w ∧
      ∀ (data : List Row) (i : Nat), data[i]? = some w →
        Api.reconcileRows (data.set i (Api.resetCoords w)) =
          Api.reconcileRows data) := by
  constructor
  · constructor
    · intro he
      by_contra hv
      have hr := Api.normalizeRow_eq_reset_of_invalid w l s hl hs hv
      rw [he] at hr
      have : w.layer_index = none := by rw [hr]; rfl
      rw [hl] at this
      cases this
    · intro hv
      exact Api.normalizeRow_eq_self_of_valid w l s hl hs hv
  · intro hv
    have hr := Api.normalizeRow_eq_reset_of_invalid w l s hl hs hv
    refine ⟨hr, fun data i hdi => ?_⟩
    apply Api.reconcileRows_congr
    rw [List.map_set]
    have hreset : Api.normalizeRow (Api.resetCoords w) = Api.resetCoords w :=
      Api.normalizeRow_of_unassigned _ (Or.inl rfl)
    rw [hreset, ← hr]
    apply list_set_self_of_getElem?
    rw [List.getElem?_map, hdi]
    rfl

/-- Witness for C2: a row whose stored slot index overflows layer 0. -/
theorem C2_stored_coordinate_validity_witness :
    (Api.normalizeRow { layer_index := some 0, slot_index := some 99 } =
        { layer_index := some 0, slot_index := some 99 } ↔
      (0 ≤ Api.MAX_LAYER_INDEX ∧ 0 < Api.getLayerCapacity 0 ∧
        99 < Api.getLayerCapacity 0)) ∧
    Api.normalizeRow { layer_index := some 0, slot_index := some 99 } =
      Api.resetCoords { layer_index := some 0, slot_index := some 99 } ∧
    Api.reconcileRows
        ([({ layer_index := some 0, slot_index := some 99 } : Row)].set 0
          (Api.resetCoords { layer_index := some 0, slot_index := some 99 })) =
      Api.reconcileRows [({ layer_index := some 0, slot_index := some 99 } : Row)] := by
  obtain ⟨h1, h2⟩ := C2_stored_coordinate_validity
    { layer_index := some 0, slot_index := some 99 } 0 99 rfl rfl
  obtain ⟨h3, h4⟩ := h2 (by decide)
  exact ⟨h1, h3, h4 _ 0 rfl⟩

/-- C3: within one reconciliation pass, unassigned rows are assigned in
ascending `created_at` order: if rows `i` and `j` are both unassigned
after normalization and row `i`'s key is strictly earlier (the
comparator refuses `key j ≤ key i`), then whenever both receive
coordinates, row `i`'s coordinate precedes row `j`'s in (layer, slot)
scan order. -/
theorem C3_assignment_follows_created_order (data : List Row) (i j : Nat)
    (wi wj wi' wj' : Row) (li si lj sj : Nat)
    (hdi : (data.map Api.normalizeRow)[i]? = some wi)
    (hdj : (data.map Api.normalizeRow)[j]? = some wj)
    (hui : Api.isPositioned wi = false)
    (huj : Api.isPositioned wj = false)
    (hlt : localeLe (Api.createdKey wj) (Api.createdKey wi) = false)
    (houti : (Api.reconcileRows data).1[i]? = some wi')
    (houtj : (Api.reconcileRows data).1[j]? = some wj')
    (hli : wi'.layer_index = some li) (hsi : wi'.slot_index = some si)
    (hlj : wj'.layer_index = some lj) (hsj : wj'.slot_index = some sj) :
    li < lj ∨ (li = lj ∧ si < sj) := by
  rw [Api.reconcileRows_fst] at houti houtj
  have extract : ∀ (k : Nat) (wk wk' : Row) (lk sk : Nat),
      (data.map Api.normalizeRow)[k]? = some wk →
      Api.isPositioned wk = false →
      (Api.applyAssignments (data.map Api.normalizeRow)
        (Api.asgOf (data.map Api.normalizeRow)))[k]? = some wk' →
      wk'.layer_index = some lk → wk'.slot_index = some sk →
      (k, some (lk, sk)) ∈ Api.asgOf (data.map Api.normalizeRow) := by
    intro k wk wk' lk sk hdk huk houtk hlk hsk
    have hlenk : k < (data.map Api.normalizeRow).length :=
      (List.getElem?_eq_some.mp hdk).1
    have hwk : (data.map Api.normalizeRow)[k] = wk := by
      rw [List.getElem?_eq_getElem hlenk] at hdk
      injection hdk
    have hlenk2 : k < (Api.applyAssignments (data.map Api.normalizeRow)
        (Api.asgOf (data.map Api.normalizeRow))).length := by
      rw [Api.length_applyAssignments]
      exact hlenk
    rw [List.getElem?_eq_getElem hlenk2] at houtk
    injection houtk with houtk
    rcases Api.reconcile_row_spec (data.map Api.normalizeRow) k hlenk hlenk2 with
      ⟨hpos, _⟩ | ⟨_, hcase⟩
    · rw [hwk] at hpos
      rw [hpos] at huk
      cases huk
    · rcases hcase with ⟨_, _, hout_eq⟩ | ⟨l, s, _, hmem, _, hout_eq⟩
      · rw [hout_eq] at houtk
        rw [← houtk] at hlk
        simp [Api.resetCoords] at hlk
      · rw [hout_eq] at houtk
        rw [← houtk] at hlk hsk
        simp only [Option.some.injEq] at hlk hsk
        rw [← hlk, ← hsk]
        exact hmem
  have hmemi := extract i wi wi' li si hdi hui houti hli hsi
  have hmemj := extract j wj wj' lj sj hdj huj houtj hlj hsj
  exact Api.asgOf_claims_ordered (data.map Api.normalizeRow) i j li si lj sj
    wi wj hdi hdj hmemi hmemj hlt

/-- Witness for C3: two unassigned rows with keys "a" (earlier, stored
second) and "b" (stored first); the earlier one gets slot (0,0), the
later one (0,1). -/
theorem C3_assignment_follows_created_order_witness :
    (0 < 0 ∨ (0 = 0 ∧ 0 < 1)) :=
  C3_assignment_follows_created_order
    [{ created_at := some "b" }, { created_at := some "a" }] 1 0
    { created_at := some "a" } { created_at := some "b" }
    { created_at := some "a", layer_index := some 0, slot_index := some 0 }
    { created_at := some "b", layer_index := some 0, slot_index := some 1 }
    0 0 0 1
    (by decide) (by decide) (by decide) (by decide) (by decide)
    (by decide) (by decide) rfl rfl rfl rfl

theorem reconcile_fixpoint (rows : List Row)
    (hN : ∀ (i : Nat) (h : i < rows.length),
      Api.normalizeRow rows[i] = rows[i]) :
    (Api.reconcileRows (Api.applyAssignments rows (Api.asgOf rows))).1 =
      Api.applyAssignments rows (Api.asgOf rows) := by
  have hlen_out : (Api.applyAssignments rows (Api.asgOf rows)).length = rows.length :=
    Api.length_applyAssignments rows _
  have hnorm : ∀ (i : Nat)
      (h2 : i < (Api.applyAssignments rows (Api.asgOf rows)).length),
      Api.normalizeRow ((Api.applyAssignments rows (Api.asgOf rows))[i]) =
        (Api.applyAssignments rows (Api.asgOf rows))[i] := by
    intro i h2
    have hi : i < rows.length := by rw [hlen_out] at h2; exact h2
    rcases Api.reconcile_row_spec rows i hi h2 with ⟨hpos, hout⟩ | ⟨_, hcase⟩
    · rw [hout]
      exact hN i hi
    · rcases hcase with ⟨_, _, hout⟩ | ⟨l, s, _, _, hval, hout⟩
      · rw [hout]
        exact Api.normalizeRow_of_unassigned _ (Or.inl rfl)
      · rw [hout]
        exact Api.normalizeRow_eq_self_of_valid _ l s rfl rfl hval
  have hmapself :
      (Api.applyAssignments rows (Api.asgOf rows)).map Api.normalizeRow =
        Api.applyAssignments rows (Api.asgOf rows) := by
    apply List.ext_getElem (by rw [List.length_map])
    intro i h1 h2
    rw [List.getElem_map]
    exact hnorm i h2
  rw [Api.reconcileRows_fst, hmapself]
  apply Api.applyAssignments_id
  intro i o hmem
  have hidx : i ∈ (Api.asgOf
      (Api.applyAssignments rows (Api.asgOf rows))).map (fun p => p.1) :=
    List.mem_map.mpr ⟨_, hmem, rfl⟩
  obtain ⟨w, hw⟩ := (Api.mem_indices_asgOf_iff _ i).mp hidx
  obtain ⟨hge, hnp⟩ := (Api.mem_unassignedOf_iff _ i w).mp hw
  have hi_out : i < (Api.applyAssignments rows (Api.asgOf rows)).length :=
    (List.getElem?_eq_some.mp hge).1
  have hweq : (Api.applyAssignments rows (Api.asgOf rows))[i] = w := by
    rw [List.getElem?_eq_getElem hi_out] at hge
    injection hge
  have hi : i < rows.length := by rw [hlen_out] at hi_out; exact hi_out
  rcases Api.reconcile_row_spec rows i hi hi_out with ⟨hpos, hout⟩ | ⟨_, hcase⟩
  · exfalso
    rw [← hweq, hout] at hnp
    rw [hpos] at hnp
    cases hnp
  · rcases hcase with ⟨_, hmem1, hout⟩ | ⟨l, s, _, _, _, hout⟩
    · have hfull1 := Api.assignClaims_mem_none_full (Api.buildOccupiedMap rows)
        (Api.sortedUnassignedOf rows) i hmem1
      have hfull2 := Api.memSlot_build_applyAssignments_full rows hfull1
      have hasg2 : Api.asgOf (Api.applyAssignments rows (Api.asgOf rows)) =
          (Api.sortedUnassignedOf (Api.applyAssignments rows (Api.asgOf rows))).map
            (fun p => (p.1, none)) := by
        unfold Api.asgOf
        exact Api.assignClaims_full_none _ _ hfull2
      constructor
      · rw [hasg2] at hmem
        rcases List.mem_map.mp hmem with ⟨p, _, hpe⟩
        rw [Prod.mk.injEq] at hpe
        exact hpe.2.symm
      · intro hi2
        constructor
        · rw [hout]
          rfl
        · rw [hout]
          rfl
    · exfalso
      rw [← hweq, hout] at hnp
      simp [Api.isPositioned] at hnp

/-- C4: the reconciliation pass is idempotent: running the pass again on
its own output (the store state with all newly assigned coordinates
persisted) returns exactly the same rows, so every entry keeps the same
coordinate assignment both times. -/
theorem C4_reconciliation_idempotent (data : List Row) :
    (Api.reconcileRows ((Api.reconcileRows data).1)).1 =
      (Api.reconcileRows data).1 := by
  rw [Api.reconcileRows_fst data]
  exact reconcile_fixpoint (data.map Api.normalizeRow) (by
    intro i h
    rw [List.getElem_map]
    exact Api.normalizeRow_idem _)

/-- C5: when every layer up to the configured maximum is full, a valid
contribution that passes the duplicate checks is rejected with status
409 and no entry is created in the record store. -/
theorem C5_structure_full_rejected (st : Api.StoreState) (inp : Api.PostInput)
    (lower : String → String) (timestamp : Nat) (uploadOk insertOk : Bool)
    (newId newCreatedAt : String)
    (ht : truthy (inp.term.map jsTrim) = true)
    (hu : truthy (inp.username.map jsTrim) = true)
    (hc : truthy (inp.clientToken.map jsTrim) = true)
    (hav : inp.avatar = none ∨ ∃ a, inp.avatar = some a ∧
      (a.size = 0 ∨ (a.size ≤ Api.MAX_FILE_SIZE ∧ uploadOk = true)))
    (hdt : st.entries.any (fun entry =>
      lower (jsTrim (entry.term.getD "")) ==
        lower ((inp.term.map jsTrim).getD "")) = false)
    (hdc : st.entries.any (fun entry =>
      entry.client_token == some ((inp.clientToken.map jsTrim).getD "")) = false)
    (hfull : ∀ l, l ≤ Api.MAX_LAYER_INDEX → ∀ s, s < Api.getLayerCapacity l →
      (Api.buildOccupiedMap st.entries).memSlot l s = true) :
    (Api.POSTModel st inp lower timestamp uploadOk true insertOk
      newId newCreatedAt).status = 409 ∧
    (Api.POSTModel st inp lower timestamp uploadOk true insertOk
      newId newCreatedAt).state.entries = st.entries := by
  have hclaim : (Api.claimNextSlot (Api.buildOccupiedMap st.entries)).2 = none :=
    Api.claimNextSlot_full_none _ hfull
  simp only [Api.POSTModel]
  rw [if_neg (by rw [ht, hu, hc]; decide)]
  rcases hav with hnone | ⟨a, ha, hsz⟩
  · simp only [hnone]
    have h409 := Api.postAfterUpload_409_of_full st
      ((inp.term.map jsTrim).getD "") ((inp.username.map jsTrim).getD "")
      ((inp.clientToken.map jsTrim).getD "") none lower insertOk
      newId newCreatedAt hdt hdc hclaim
    rw [h409]
    exact ⟨rfl, rfl⟩
  · simp only [ha]
    by_cases hpos : a.size > 0
    · rw [if_pos hpos]
      rcases hsz with hz | ⟨hle, hup⟩
      · omega
      · rw [if_neg (by omega)]
        rw [if_neg (by rw [hup]; decide)]
        have h409 := Api.postAfterUpload_409_of_full
          { st with blobs := st.blobs ++
              [((inp.clientToken.map jsTrim).getD "") ++ "/" ++
                toString timestamp ++ "-" ++ Api.sanitizeFileName a.name] }
          ((inp.term.map jsTrim).getD "") ((inp.username.map jsTrim).getD "")
          ((inp.clientToken.map jsTrim).getD "")
          (some (((inp.clientToken.map jsTrim).getD "") ++ "/" ++
            toString timestamp ++ "-" ++ Api.sanitizeFileName a.name))
          lower insertOk newId newCreatedAt hdt hdc hclaim
        rw [h409]
        exact ⟨rfl, rfl⟩
    · rw [if_neg hpos]
      have h409 := Api.postAfterUpload_409_of_full st
        ((inp.term.map jsTrim).getD "") ((inp.username.map jsTrim).getD "")
        ((inp.clientToken.map jsTrim).getD "") none lower insertOk
        newId newCreatedAt hdt hdc hclaim
      rw [h409]
      exact ⟨rfl, rfl⟩

set_option maxRecDepth 100000 in
/-- Witness for C5: a store with all 76 slots of layers 0-4 occupied
rejects a fresh contribution with 409 and leaves the store unchanged. -/
theorem C5_structure_full_rejected_witness :
    (Api.POSTModel { entries := Api.fullStore, blobs := [] }
      { term := some "hi", username := some "u", clientToken := some "t" }
      (fun s => s) 0 true true true "id9" "ts").status = 409 ∧
    (Api.POSTModel { entries := Api.fullStore, blobs := [] }
      { term := some "hi", username := some "u", clientToken := some "t" }
      (fun s => s) 0 true true true "id9" "ts").state.entries = Api.fullStore :=
  C5_structure_full_rejected { entries := Api.fullStore, blobs := [] }
    { term := some "hi", username := some "u", clientToken := some "t" }
    (fun s => s) 0 true true "id9" "ts"
    (by decide) (by decide) (by decide) (Or.inl rfl)
    (by decide) (by decide) (by decide)

/-- C6: a failing batch write-back never fails the read: the `GET`
response is the same whether the upsert succeeds or fails, carries
status 200, and reflects the in-memory assignment computed by the
reconciliation pass. -/
theorem C6_writeback_failure_does_not_fail_read (data : List Row)
    (resolve : String → Option String) :
    Api.GETModel (.ok data) .fail resolve = Api.GETModel (.ok data) .ok resolve ∧
    (Api.GETModel (.ok data) .fail resolve).status = 200 ∧
    (Api.GETModel (.ok data) .fail resolve).words =
      some ((Api.reconcileRows data).1.map (Api.resolveAvatarUrl resolve)) :=
  ⟨rfl, rfl, rfl⟩

/-- C7: the both-or-neither invariant is preserved everywhere: by the
validity-check normalization, by the full reconciliation pass, and by
entry creation on the write path. -/
theorem C7_both_or_neither_invariant :
    (∀ w : Row, Api.bothOrNeither w = true →
       Api.bothOrNeither (Api.normalizeRow w) = true) ∧
    (∀ (data : List Row) (w : Row), w ∈ (Api.reconcileRows data).1 →
       Api.bothOrNeither w = true) ∧
    (∀ (st : Api.StoreState) (inp : Api.PostInput) (lower : String → String)
       (ts : Nat) (uOk fOk iOk : Bool) (nid nca : String),
       (Api.POSTModel st inp lower ts uOk fOk iOk nid nca).status = 201 →
       ∃ w, (Api.POSTModel st inp lower ts uOk fOk iOk nid nca).state.entries =
         st.entries ++ [w] ∧ Api.bothOrNeither w = true) := by
  refine ⟨?_, ?_, ?_⟩
  · intro w h
    rcases Api.normalizeRow_cases w with he | he
    · rw [he]
      exact h
    · rw [he]
      rfl
  · intro data w hw
    exact Api.reconcileRows_bothOrNeither data w hw
  · intro st inp lower ts uOk fOk iOk nid nca hst
    rcases Api.POSTModel_entries st inp lower ts uOk fOk iOk nid nca with
      ⟨hne, _⟩ | ⟨_, w, hent, h1, h2⟩
    · exact absurd hst hne
    · refine ⟨w, hent, ?_⟩
      unfold Api.bothOrNeither
      rw [h1, h2]
      rfl

/-- Witness for C7 at concrete rows and a concrete successful `POST`. -/
theorem C7_both_or_neither_invariant_witness :
    Api.bothOrNeither (Api.normalizeRow
      { layer_index := some 0, slot_index := some 99 }) = true ∧
    Api.bothOrNeither { layer_index := some 0, slot_index := some 0 } = true ∧
    ∃ w, (Api.POSTModel { entries := [], blobs := [] }
        { term := some "hi", username := some "u", clientToken := some "t" }
        (fun s => s) 0 true true true "id9" "ts").state.entries = [] ++ [w] ∧
      Api.bothOrNeither w = true := by
  obtain ⟨h1, h2, h3⟩ := C7_both_or_neither_invariant
  refine ⟨h1 { layer_index := some 0, slot_index := some 99 } (by decide), ?_, ?_⟩
  · exact h2 [{ layer_index := some 0, slot_index := some 0 }]
      { layer_index := some 0, slot_index := some 0 } (by decide)
  · exact h3 { entries := [], blobs := [] }
      { term := some "hi", username := some "u", clientToken := some "t" }
      (fun s => s) 0 true true true "id9" "ts" (by decide)

/-- C10 counterexample: a `POST` with an avatar and a duplicate term is
rejected with 409, creates no entry, but the avatar blob uploaded
earlier in the request remains in the blob store. -/
theorem C10_conflict_leaves_uploaded_blob_cex :
    (Api.POSTModel
      { entries := [{ term := some "hello", client_token := some "t1" }],
        blobs := [] }
      { term := some "hello", username := some "u", clientToken := some "t2",
        avatar := some { name := "a b.png", size := 10 } }
      (fun s => s) 7 true true true "id9" "ts").status = 409 ∧
    (Api.POSTModel
      { entries := [{ term := some "hello", client_token := some "t1" }],
        blobs := [] }
      { term := some "hello", username := some "u", clientToken := some "t2",
        avatar := some { name := "a b.png", size := 10 } }
      (fun s => s) 7 true true true "id9" "ts").state.blobs =
      ["t2/7-a_b.png"] := by
  decide

/-- C10 (amended): a 409 conflict creates no entry row; an avatar blob
uploaded during the request, however, is not rolled back. -/
theorem C10_conflict_no_entry_created (st : Api.StoreState)
    (inp : Api.PostInput) (lower : String → String) (ts : Nat)
    (uOk fOk iOk : Bool) (nid nca : String)
    (h : (Api.POSTModel st inp lower ts uOk fOk iOk nid nca).status = 409) :
    (Api.POSTModel st inp lower ts uOk fOk iOk nid nca).state.entries =
      st.entries := by
  rcases Api.POSTModel_entries st inp lower ts uOk fOk iOk nid nca with
    ⟨_, he⟩ | ⟨hst, _⟩
  · exact he
  · rw [hst] at h
    exact absurd h (by decide)

/-- Witness for the amended C10 at the concrete conflicting input. -/
theorem C10_conflict_no_entry_created_witness :
    (Api.POSTModel
      { entries := [{ term := some "hello", client_token := some "t1" }],
        blobs := [] }
      { term := some "hello", username := some "u", clientToken := some "t2",
        avatar := some { name := "a b.png", size := 10 } }
      (fun s => s) 7 true true true "id9" "ts").state.entries =
      [{ term := some "hello", client_token := some "t1" }] :=
  C10_conflict_no_entry_created
    { entries := [{ term := some "hello", client_token := some "t1" }],
      blobs := [] }
    { term := some "hello", username := some "u", clientToken := some "t2",
      avatar := some { name := "a b.png", size := 10 } }
    (fun s => s) 7 true true true "id9" "ts" (by decide)

/-- C8: in the older variant (capacity `3 * 2 ^ layerIndex`, no maximum
layer), the unbounded claim loop terminates with a free coordinate for
every finite occupancy map: some finite fuel makes it return, and the
returned coordinate is free in the map passed in. -/
theorem C8_legacy_claim_always_terminates (m : OccMap) :
    ∃ fuel m' l s, Legacy.claimLoop m 0 fuel = some (m', l, s) ∧
      m.memSlot l s = false ∧ s < Legacy.getLayerCapacity l := by
  have hfree : ∃ s, s < Legacy.getLayerCapacity (Legacy.totalSize m) ∧
      (OccMap.getLayer m (Legacy.totalSize m)).contains s = false := by
    have h1 := getLayer_length_le_totalSize m (Legacy.totalSize m)
    have h2 : Legacy.totalSize m < Legacy.getLayerCapacity (Legacy.totalSize m) := by
      unfold Legacy.getLayerCapacity Legacy.BASE_LAYER_CAPACITY
      have := Nat.lt_two_pow (Legacy.totalSize m)
      have h3 : 2 ^ Legacy.totalSize m ≤ 3 * 2 ^ Legacy.totalSize m := by omega
      omega
    exact exists_free_of_length_lt _ _ (by omega)
  obtain ⟨m', l, s, ha, hb, hc⟩ := Legacy.claimLoop_succeeds
    (Legacy.totalSize m + 1) m 0 (Legacy.totalSize m) (Nat.zero_le _)
    (by omega) hfree
  exact ⟨Legacy.totalSize m + 1, m', l, s, ha, hb, hc⟩

/-- C9 counterexample: at layer 4 the server capacity is 24 (custom
override) while the client page computes `4 * 2 ^ 4 = 64`, because the
client's custom table lacks layer 4 and its max-layer guard sits inside
the custom branch. -/
theorem C9_capacity_functions_disagree_cex :
    ClientPage.getLayerCapacity 4 ≠ Api.getLayerCapacity 4 := by decide

/-- C9 (amended): the server and client capacity functions agree on
layers 0 through 3 only. -/
theorem C9_capacity_functions_agree_low_layers (l : Nat) (h : l ≤ 3) :
    ClientPage.getLayerCapacity l = Api.getLayerCapacity l := by
  interval_cases l <;> decide

/-- Witness for the amended C9 at layer 3. -/
theorem C9_capacity_functions_agree_low_layers_witness :
    ClientPage.getLayerCapacity 3 = Api.getLayerCapacity 3 :=
  C9_capacity_functions_agree_low_layers 3 (by decide)

end RootsOfSentient
